import Mathlib

/-!
Verification development for the lfjson storage engine (64-bit target).

The C++ sources are shallowly embedded:
  - byte strings (NUL-terminated char arrays without the terminator) become
    lists of byte values;
  - the string pool (StringPool.h) becomes a structure holding its bucket
    chains as lists, parametrised by the hash function (the repository uses
    either XXH3 or the FNV-1a fallback; the invariants hold for any hash,
    and FNV-1a, whose code is in the repository, is used for witnesses);
  - the tagged value cell (BaseData.h) becomes an inductive tree where the
    capacity / pointer representation of containers is abstracted to lists;
  - the streaming handler (Document.h) keeps its byte stack: the stack is
    a list of typed cells annotated with their byte offsets together with
    the byte size counter that the C++ code maintains separately;
  - the slab pool allocator (PoolAllocator.h, nominal scheme) keeps chunks
    as byte arrays, with dead cells written into the bytes exactly as the
    code does; a raw pointer is represented by the (chunk index, offset)
    pair that the binary search of deallocate recovers from it.

Machine integers are Nat / Int with explicit reductions modulo 2 ^ w at the
conversions where the code truncates.  Doubles are modelled as rationals:
the only double operations reached by the statements proved here are
storing literals and converting 64-bit integers whose magnitude is far
below 2 ^ 53, where binary64 arithmetic is exact.
-/

namespace Lfjson

/-- A C byte string (without its NUL terminator, no embedded zero bytes). -/
abbrev ByteStr := List Nat

/-- std::memcmp over equal-length unsigned byte arrays, as called from
JString::compare: lexicographic comparison of byte values. -/
def memCmp : ByteStr → ByteStr → Ordering
  | [], [] => .eq
  | [], _ :: _ => .lt
  | _ :: _, [] => .gt
  | a :: as, b :: bs =>
    match compare a b with
    | .eq => memCmp as bs
    | o => o

/-- JString::compare against an external (pointer, length) probe:
length first, then byte comparison. -/
def jcmp (a b : ByteStr) : Ordering :=
  if a.length < b.length then .lt
  else if b.length < a.length then .gt
  else memCmp a b

/-! ## String pool (StringPool.h / JString.h)

A pooled string object (JString): byte payload plus the two flag bits of the
packed flags word, len:30 | key:1 | own:1.  The intrusive next link becomes
the list structure of the chains; the chunk-compact PoolPtr encoding of the
link is an allocator-level representation detail. -/

structure JStr where
  s : ByteStr
  own : Bool
  key : Bool
deriving DecidableEq, Repr

/-- The hash table state: bucket array of chains plus the held item count
(mItemCount).  mBucketCount always equals the bucket array length and is
represented by it. -/
structure Pool where
  buckets : List (List JStr)
  itemCount : Nat
deriving DecidableEq, Repr

/-- The default-constructed StringPool: no buckets, no items. -/
def Pool.empty : Pool := ⟨[], 0⟩

/-- FNV-1a 32-bit over the bytes, the LFJ_NO_XXHASH fallback hash in
StringPool.h (the pool invariants below are proved for an arbitrary hash
function; this concrete one is used for evaluation). -/
def fnv1a32 (s : ByteStr) : Nat :=
  s.foldl (fun h c => ((h ^^^ c) * 16777619) % 2 ^ 32) 2166136261

/-- Result of walking one bucket chain in StringPool::provide. -/
inductive InsResult where
  | found (e : JStr) (chain : List JStr)
  | inserted (chain : List JStr)
deriving DecidableEq, Repr

/-- The chain walk of StringPool::provide: equal element found (its key
flag is ORed sticky, JString::updateIsKey), or the new string is created
before the first element ordering greater than the probe, or appended at
the end of the chain. -/
def chainInsert (x : JStr) : List JStr → InsResult
  | [] => .inserted [x]
  | e :: rest =>
    match jcmp e.s x.s with
    | .eq =>
      let e2 : JStr := { e with key := e.key || x.key }
      .found e2 (e2 :: rest)
    | .gt => .inserted (x :: e :: rest)
    | .lt =>
      match chainInsert x rest with
      | .found f c => .found f (e :: c)
      | .inserted c => .inserted (e :: c)

/-- StringPool::pushNewString (used by rehash): sorted insertion before the
first chain element ordering greater than the string; duplicates are
asserted absent. -/
def pushNewString (x : JStr) : List JStr → List JStr
  | [] => [x]
  | e :: rest =>
    match jcmp e.s x.s with
    | .gt => x :: e :: rest
    | _ => e :: pushNewString x rest

/-- The re-homing loop of StringPool::rehash: every live string, in bucket
order then chain order, is pushed into the new bucket array at its new
hash index. -/
def insertAll (hash : ByteStr → Nat) (n : Nat) :
    List JStr → List (List JStr) → List (List JStr)
  | [], bks => bks
  | e :: es, bks =>
    let idx := hash e.s % n
    insertAll hash n es (bks.set idx (pushNewString e (bks.getD idx [])))

/-- StringPool::rehash: allocate a cleared bucket array of the new size and
re-home every string; the item count is unchanged. -/
def Pool.rehash (hash : ByteStr → Nat) (p : Pool) (newBucketCount : Nat) : Pool :=
  { buckets := insertAll hash newBucketCount p.buckets.flatten
      (List.replicate newBucketCount []),
    itemCount := p.itemCount }

/-- Growth parameters of StringPool (StartingBucketCount 16, GrowthFactor
2.0, DefaultMaxLoadFactor 1.5).  The float expressions
(uint32_t)(mBucketCount * 1.5f) and ceil(mBucketCount * 2.f) are exact at
every bucket count below 2 ^ 23, far beyond the uint16-indexed chunk
scheme; they are rendered as 3 * n / 2 and 2 * n. -/
def poolLoadThreshold (bucketCount : Nat) : Nat := 3 * bucketCount / 2

/-- The grow-by-anticipation block at the head of StringPool::provide:
rehash to ceil(bucketCount * GrowthFactor), or to StartingBucketCount = 16
when still empty, when the incoming item would exceed the load threshold
(the guard against bucket-count overflow mirrors the uint32 check). -/
def poolGrown (hash : ByteStr → Nat) (p : Pool) : Pool :=
  if p.itemCount + 1 > poolLoadThreshold p.buckets.length then
    if p.buckets.length < 2147483647 then
      p.rehash hash (if p.buckets.length > 0 then 2 * p.buckets.length else 16)
    else p
  else p

/-- StringPool::provide (get or create).  Grows by anticipation when the
incoming count would exceed the load threshold, hashes, then walks the home
bucket chain.  Returns the new pool, the returned JString reference
(identified by its content) and the found flag. -/
def poolProvide (hash : ByteStr → Nat) (p : Pool) (s : ByteStr) (own key : Bool) :
    Pool × JStr × Bool :=
  let p := poolGrown hash p
  let idx := hash s % p.buckets.length
  match chainInsert ⟨s, own, key⟩ (p.buckets.getD idx []) with
  | .found e c => (⟨p.buckets.set idx c, p.itemCount⟩, e, true)
  | .inserted c => (⟨p.buckets.set idx c, p.itemCount + 1⟩, ⟨s, own, key⟩, false)

/-- StringPool::get_ : read-only lookup; walks the home bucket chain until
JString::compare returns 0. -/
def poolGet (hash : ByteStr → Nat) (p : Pool) (s : ByteStr) : Option JStr :=
  if p.itemCount = 0 then none
  else (p.buckets.getD (hash s % p.buckets.length) []).find? fun e => jcmp e.s s = .eq

/-- The per-chain walk of StringPool::releaseValues: unlink every string
whose key flag is false (head loop then in-chain loop; the net effect on
the chain is this recursion). -/
def releaseChain : List JStr → List JStr
  | [] => []
  | e :: rest => if e.key then e :: releaseChain rest else releaseChain rest

/-- Number of strings releaseValues deallocates, each decrementing
mItemCount. -/
def releasedCount (p : Pool) : Nat :=
  (p.buckets.map fun c => (c.filter fun e => !e.key).length).sum

/-- StringPool::releaseValues: every chain is filtered of its non-key
strings, the item count decreasing once per removal. -/
def Pool.releaseValues (p : Pool) : Pool :=
  { buckets := p.buckets.map releaseChain,
    itemCount := p.itemCount - releasedCount p }

/-! ### Pool invariants (spec section 3, invariants 8 and 9) -/

/-- The strict (length, lexicographic) order on pooled strings. -/
def chainLt (a b : JStr) : Prop := jcmp a.s b.s = .lt

instance : DecidableRel chainLt := fun a b => by unfold chainLt; infer_instance

/-- Invariant: every bucket chain is strictly increasing under
(length, lexicographic) order. -/
def chainsSorted (p : Pool) : Prop := ∀ c ∈ p.buckets, c.Pairwise chainLt

/-- Invariant: every string sits in the bucket its hash selects. -/
def homeOk (hash : ByteStr → Nat) (p : Pool) : Prop :=
  ∀ i, i < p.buckets.length →
    ∀ e ∈ p.buckets.getD i [], hash e.s % p.buckets.length = i

/-- Invariant: mItemCount equals the total number of strings linked from
all buckets. -/
def countOk (p : Pool) : Prop :=
  p.itemCount = (p.buckets.map List.length).sum

/-- Well-formedness of a pool state. -/
def poolWf (hash : ByteStr → Nat) (p : Pool) : Prop :=
  chainsSorted p ∧ homeOk hash p ∧ countOk p

instance (p : Pool) : Decidable (chainsSorted p) := by
  unfold chainsSorted; infer_instance

instance (hash : ByteStr → Nat) (p : Pool) : Decidable (homeOk hash p) := by
  unfold homeOk; infer_instance

instance (p : Pool) : Decidable (countOk p) := by
  unfold countOk; infer_instance

instance (hash : ByteStr → Nat) (p : Pool) : Decidable (poolWf hash p) := by
  unfold poolWf; infer_instance

/-- No byte string occurs more than once anywhere in the pool. -/
def poolNoDup (p : Pool) : Prop :=
  (p.buckets.flatten.map JStr.s).Nodup

/-- Invariants of a bucket array under construction during rehash. -/
def bucketsOk (hash : ByteStr → Nat) (n : Nat) (bks : List (List JStr)) : Prop :=
  bks.length = n ∧ (∀ c ∈ bks, c.Pairwise chainLt) ∧
    (∀ i, i < n → ∀ e ∈ bks.getD i [], hash e.s % n = i)

/-- Whether a byte string is interned somewhere in the pool. -/
def poolMem (p : Pool) (s : ByteStr) : Prop :=
  s ∈ p.buckets.flatten.map JStr.s

instance (p : Pool) (s : ByteStr) : Decidable (poolMem p s) := by
  unfold poolMem; infer_instance

/-! ## Claims C5 and C6: string pool behaviour -/

/-- A small concrete pool for evaluating the pool theorems: the string
"hi" provided as a key and the string "w" provided as a value only. -/
def wpool : Pool :=
  (poolProvide fnv1a32
    ((poolProvide fnv1a32 Pool.empty [104, 105] false true).1)
    [119] false false).1

/-! ## Value cells (BaseData.h)

The 16-byte tagged cell becomes a sum type; the capa/size/pointer triple
of containers and the big-container descriptors are abstracted into the
element list they store (spec section 9 sanctions this encoding).  Doubles
are rationals, exact for every value the proved statements touch. -/

/-- The value discriminant, enum JType. -/
inductive JType where
  | OBJECT | ARRAY | BARRAY | IARRAY | DARRAY | SSTRING | LSTRING
  | INT64 | UINT64 | DOUBLE | TRUE | FALSE | NUL
deriving DecidableEq, Repr

/-- A JValue and the structure below it.  jobject members pair the interned
key (identified by its bytes; pool interning makes the stored JString
pointer unique per byte string) with the member value. -/
inductive JVal where
  | jobject (members : List (ByteStr × JVal))
  | jarray  (elems : List JVal)
  | jbarray (elems : List Bool)
  | jiarray (elems : List Int)
  | jdarray (elems : List Rat)
  | jsstring (s : ByteStr)
  | jlstring (s : ByteStr)
  | jint (i : Int)
  | juint (u : Nat)
  | jdouble (d : Rat)
  | jtrue
  | jfalse
  | jnull

/-- The tag byte of a cell. -/
def JVal.type : JVal → JType
  | .jobject _ => .OBJECT
  | .jarray _ => .ARRAY
  | .jbarray _ => .BARRAY
  | .jiarray _ => .IARRAY
  | .jdarray _ => .DARRAY
  | .jsstring _ => .SSTRING
  | .jlstring _ => .LSTRING
  | .jint _ => .INT64
  | .juint _ => .UINT64
  | .jdouble _ => .DOUBLE
  | .jtrue => .TRUE
  | .jfalse => .FALSE
  | .jnull => .NUL

/-- ConstValue::ShortString::MaxSize = sizeof(Number) - 1; sizeof(Number)
is 16 on the 64-bit target. -/
def shortStringMaxSize : Nat := 16 - 1

/-- ConstValue::ShortString::MaxLen = MaxSize - 1 (14 on 64-bit): the
largest length storable inline. -/
def shortStringMaxLen : Nat := shortStringMaxSize - 1

/-- JValue::minStringLength: scan for the terminating NUL over at most
ShortString_MaxSize characters.  A byte string of our model terminates
right after its bytes, so the scan returns min(length, MaxSize). -/
def minStringLength (s : ByteStr) : Nat := min s.length shortStringMaxSize

/-- The string-classification block shared verbatim by
RefValue::operator=(const char*), arrayPushBack(const char*, int32_t) and
objectPushBack(..., const char* val, ...): lengths below
ShortString_MaxSize are written inline, anything else is interned through
StringPool::provide (borrowed, not key-flagged) and stored as LongString.
length < 0 means scan to NUL. -/
def classifyString (hash : ByteStr → Nat) (p : Pool) (s : ByteStr)
    (length : Int) : Pool × JVal :=
  let minLen : Nat := if 0 ≤ length then length.toNat else minStringLength s
  if minLen < shortStringMaxSize then
    (p, .jsstring (s.take minLen))
  else
    let r := poolProvide hash p (if 0 ≤ length then s.take length.toNat else s)
      false false
    (r.1, .jlstring r.2.1.s)

/-- RefValue::operator=(const char*): deallocate the cell (the incoming
cell is the function result, so deallocation is implicit) and classify. -/
def refAssignString (hash : ByteStr → Nat) (p : Pool) (s : ByteStr) :
    Pool × JVal :=
  classifyString hash p s (-1)

/-- RefValue::arrayPushBack(const char*, int32_t): append a slot and
classify into it. -/
def arrayPushBackString (hash : ByteStr → Nat) (p : Pool) (v : JVal)
    (s : ByteStr) (length : Int) : Option (Pool × JVal) :=
  match v with
  | .jarray l =>
    let r := classifyString hash p s length
    some (r.1, .jarray (l ++ [r.2]))
  | _ => none

/-- RefValue::objectPushBack(const char* key, const char* val, ...):
objectIncSize provides the key (key-flagged, borrowed) and appends a
member, then the value slot is classified. -/
def objectPushBackString (hash : ByteStr → Nat) (p : Pool) (v : JVal)
    (k : ByteStr) (s : ByteStr) (valLength : Int) : Option (Pool × JVal) :=
  match v with
  | .jobject ms =>
    let pk := poolProvide hash p k false true
    let r := classifyString hash pk.1 s valLength
    some (r.1, .jobject (ms ++ [(pk.2.1.s, r.2)]))
  | _ => none

/-- The 14-character string "abcdefghijklmn" of the claimed boundary
scenario. -/
def str14 : ByteStr :=
  [97, 98, 99, 100, 101, 102, 103, 104, 105, 106, 107, 108, 109, 110]

/-! ## Claim C4: editor operator[] on arrays and objects -/

/-- RefValue::operator[](int): a Null cell is first retagged to an empty
Array; the index is asserted not to pass the size; index == size appends
a Null element (arrayGrow only changes capacity, which the list model
absorbs); the slot at the index is returned. -/
def refBracketIdx (v : JVal) (index : Nat) : Option (JVal × Nat) :=
  let l? : Option (List JVal) :=
    match v with
    | .jnull => some []
    | .jarray l => some l
    | _ => none
  match l? with
  | none => none
  | some l =>
    if index ≤ l.length then
      if index = l.length then some (.jarray (l ++ [.jnull]), index)
      else some (.jarray l, index)
    else none

/-- RefValue::operator[](const char* key): a Null cell is first retagged
to an empty Object; the key is provided to the pool (borrowed, key flag);
when found, Document::getValue scans the members comparing the stored
JString pointer with the provided reference, which under pool interning
equals comparing key bytes; a miss appends a member with a Null value. -/
def refBracketKey (hash : ByteStr → Nat) (p : Pool) (v : JVal) (k : ByteStr) :
    Option (Pool × JVal × Nat) :=
  let ms? : Option (List (ByteStr × JVal)) :=
    match v with
    | .jnull => some []
    | .jobject ms => some ms
    | _ => none
  match ms? with
  | none => none
  | some ms =>
    let pr := poolProvide hash p k false true
    let idx? := if pr.2.2 then ms.findIdx? (fun m => decide (m.1 = pr.2.1.s))
      else none
    match idx? with
    | some i => some (pr.1, .jobject ms, i)
    | none => some (pr.1, .jobject (ms ++ [(pr.2.1.s, .jnull)]), ms.length)

/-! ## Claim C9: checked accessors (RefValue::xxxAt)

Each checked accessor throws std::out_of_range exactly when the index
reaches the container size and otherwise returns the element; they are
pure reads, so the document is unchanged in every case (the model returns
no modified state).  The outer Option is the debug assertion on the tag
(calling an accessor on a mismatched tag is a precondition violation). -/

def arrayValueAt (v : JVal) (index : Nat) : Option (Except Unit JVal) :=
  match v with
  | .jarray l =>
    if index ≥ l.length then some (.error ()) else some (.ok (l.getD index .jnull))
  | _ => none

def barrayValueAt (v : JVal) (index : Nat) : Option (Except Unit Bool) :=
  match v with
  | .jbarray l =>
    if index ≥ l.length then some (.error ()) else some (.ok (l.getD index false))
  | _ => none

def iarrayValueAt (v : JVal) (index : Nat) : Option (Except Unit Int) :=
  match v with
  | .jiarray l =>
    if index ≥ l.length then some (.error ()) else some (.ok (l.getD index 0))
  | _ => none

def darrayValueAt (v : JVal) (index : Nat) : Option (Except Unit Rat) :=
  match v with
  | .jdarray l =>
    if index ≥ l.length then some (.error ()) else some (.ok (l.getD index 0))
  | _ => none

def objectMemberAt (v : JVal) (index : Nat) :
    Option (Except Unit (ByteStr × JVal)) :=
  match v with
  | .jobject ms =>
    if index ≥ ms.length then some (.error ())
    else some (.ok (ms.getD index ([], .jnull)))
  | _ => none

def arrayCValueAt (v : JVal) (index : Nat) : Option (Except Unit JVal) :=
  arrayValueAt v index

def barrayCValueAt (v : JVal) (index : Nat) : Option (Except Unit Bool) :=
  barrayValueAt v index

def iarrayCValueAt (v : JVal) (index : Nat) : Option (Except Unit Int) :=
  iarrayValueAt v index

def darrayCValueAt (v : JVal) (index : Nat) : Option (Except Unit Rat) :=
  darrayValueAt v index

def objectCMemberAt (v : JVal) (index : Nat) :
    Option (Except Unit (ByteStr × JVal)) :=
  objectMemberAt v index

/-! ## Streaming build handler (Document.h, class Handler)

The handler byte stack (LFStack) is modelled as the set of typed records
currently written in the buffer, each annotated with its byte start
offset, TOGETHER with the separate byte counter mStack.size that the code
maintains.  Writes happen at offsets computed from mStack.size exactly as
in the code; a write destroys any record its byte range overlaps (the
model reads of a destroyed or absent record fail, standing for the
garbage such a read returns in the release build and the assertion in the
debug build).  Record sizes on the 64-bit target: JValue 16, JMember 24
(key pointer, then the value cell at offset +16 - 8 = +8; what matters
here is that the member's value cell occupies the last 16 bytes), bool 1,
int64 8, double 8.  endObject / endArray only decrement the counter, as
the code does; stale records beyond the counter keep their bytes until
overwritten. -/

inductive HCell where
  | val (v : JVal)
  | memb (k : ByteStr) (v : JVal)
  | rawB (b : Bool)
  | rawI (i : Int)
  | rawD (d : Rat)

/-- Byte width of a stack record. -/
def HCell.width : HCell → Nat
  | .val _ => 16
  | .memb _ _ => 24
  | .rawB _ => 1
  | .rawI _ => 8
  | .rawD _ => 8

/-- Handler state: document root and pool, byte stack, and the member
fields of class Handler. -/
structure HState where
  root : JVal
  pool : Pool
  stack : List (Nat × HCell)
  size : Nat
  memberVal : Bool
  rootInit : Bool
  intToDouble : Bool
  arraySize : Nat
  arrayType : JType

/-- The record starting at a given byte offset, if intact. -/
def cellAt (stack : List (Nat × HCell)) (off : Nat) : Option (Nat × HCell) :=
  stack.find? fun e => e.1 = off

/-- Replace the record starting at off. -/
def replaceAt (stack : List (Nat × HCell)) (off : Nat) (c : HCell) :
    List (Nat × HCell) :=
  stack.map fun e => if e.1 = off then (off, c) else e

/-- Do the byte range [off, off+w) and the record e intersect? -/
def overlap (off w : Nat) (e : Nat × HCell) : Bool :=
  decide (off < e.1 + e.2.width ∧ e.1 < off + w)

/-- Write a record at a byte offset, destroying everything it overlaps. -/
def writeCell (stack : List (Nat × HCell)) (off : Nat) (c : HCell) :
    List (Nat × HCell) :=
  (stack.filter fun e => !(overlap off c.width e)) ++ [(off, c)]

/-- Push a 16-byte value cell at the stack end (reserve + inPlaceValue +
increment). -/
def pushValCell (st : HState) (v : JVal) : HState :=
  { st with stack := writeCell st.stack st.size (.val v), size := st.size + 16 }

/-- The mMemberVal paths: assert the last-pushed member's value slot is
Null, then construct the value in place and clear mMemberVal. -/
def fillMember (st : HState) (v : JVal) : Option HState :=
  match cellAt st.stack (st.size - 24) with
  | some (off, .memb k w) =>
    if w.type = .NUL then
      some { st with stack := replaceAt st.stack off (.memb k v),
                     memberVal := false }
    else none
  | _ => none

/-- Read n raw bools written at base, base+1, ... -/
def readRawBs (stack : List (Nat × HCell)) (base n : Nat) : Option (List Bool) :=
  (List.range n).mapM fun i =>
    match cellAt stack (base + i) with
    | some (_, .rawB b) => some b
    | _ => none

/-- Read n raw int64 at base, base+8, ... -/
def readRawIs (stack : List (Nat × HCell)) (base n : Nat) : Option (List Int) :=
  (List.range n).mapM fun i =>
    match cellAt stack (base + 8 * i) with
    | some (_, .rawI v) => some v
    | _ => none

/-- Read n raw doubles at base, base+8, ... -/
def readRawDs (stack : List (Nat × HCell)) (base n : Nat) : Option (List Rat) :=
  (List.range n).mapM fun i =>
    match cellAt stack (base + 8 * i) with
    | some (_, .rawD v) => some v
    | _ => none

/-- Read n value cells at base, base+16, ... -/
def readVals (stack : List (Nat × HCell)) (base n : Nat) : Option (List JVal) :=
  (List.range n).mapM fun i =>
    match cellAt stack (base + 16 * i) with
    | some (_, .val v) => some v
    | _ => none

/-- Read n member cells at base, base+24, ... -/
def readMembs (stack : List (Nat × HCell)) (base n : Nat) :
    Option (List (ByteStr × JVal)) :=
  (List.range n).mapM fun i =>
    match cellAt stack (base + 24 * i) with
    | some (_, .memb k v) => some (k, v)
    | _ => none

/-- Write the widened 16-byte value cells over the former raw segment,
starting at the segment base (the code walks backwards so each force
happens before its source bytes are overwritten; the net store is this). -/
def widenVals (vals : List JVal) (base : Nat) (stack : List (Nat × HCell)) :
    List (Nat × HCell) :=
  vals.enum.foldl (fun sk iv => writeCell sk (base + 16 * iv.1) (.val iv.2)) stack

/-- Handler::convertedFor.  Returns whether the array stays specialized,
mutating the pending segment in place.  The generic-promotion branch
reserves capacity and widens each element in place but leaves mStack.size
unchanged, exactly as the code does. -/
def convertedFor (t : JType) (st : HState) : Option (Bool × HState) :=
  if st.arrayType = t ∨ st.arrayType = .NUL then
    some (true, { st with arraySize := st.arraySize + 1, arrayType := t })
  else if st.intToDouble = true ∧ st.arrayType = .DARRAY ∧ t = .IARRAY then
    some (true, { st with arraySize := st.arraySize + 1 })
  else if st.intToDouble = true ∧ st.arrayType = .IARRAY ∧ t = .DARRAY then
    match readRawIs st.stack (st.size - 8 * st.arraySize) st.arraySize with
    | none => none
    | some is =>
      let base := st.size - 8 * st.arraySize
      let stack2 := (is.enum).foldl
        (fun sk iv => writeCell sk (base + 8 * iv.1) (.rawD (iv.2 : Rat))) st.stack
      some (true, { st with stack := stack2, arraySize := st.arraySize + 1,
                            arrayType := .DARRAY })
  else
    match st.arrayType with
    | .BARRAY =>
      let base := st.size - 1 * st.arraySize
      match readRawBs st.stack base st.arraySize with
      | none => none
      | some bs =>
        some (false, { st with
          stack := widenVals (bs.map fun b => if b then JVal.jtrue else .jfalse)
            base st.stack,
          arrayType := .ARRAY })
    | .IARRAY =>
      let base := st.size - 8 * st.arraySize
      match readRawIs st.stack base st.arraySize with
      | none => none
      | some is =>
        some (false, { st with
          stack := widenVals (is.map JVal.jint) base st.stack,
          arrayType := .ARRAY })
    | .DARRAY =>
      let base := st.size - 8 * st.arraySize
      match readRawDs st.stack base st.arraySize with
      | none => none
      | some ds =>
        some (false, { st with
          stack := widenVals (ds.map JVal.jdouble) base st.stack,
          arrayType := .ARRAY })
    | .ARRAY => some (false, { st with arrayType := .ARRAY })
    | _ => none

/-- Write a finished container value into the enclosing slot: the root
when the stack emptied, otherwise the value cell at lastValue() (either a
plain value cell or the value slot of a member cell); setRawArray /
setRawObject assert the slot's current tag. -/
def placeValue (st : HState) (newSize : Nat) (v : JVal) (expected : JType) :
    Option HState :=
  if newSize = 0 then
    if st.root.type = expected then some { st with root := v, size := 0 }
    else none
  else
    match cellAt st.stack (newSize - 16) with
    | some (off, .val w) =>
      if w.type = expected then
        some { st with stack := replaceAt st.stack off (.val v), size := newSize }
      else none
    | _ =>
      match cellAt st.stack (newSize - 24) with
      | some (off, .memb k w) =>
        if w.type = expected then
          some { st with stack := replaceAt st.stack off (.memb k v),
                         size := newSize }
        else none
      | _ => none

/-- Handler::pushNull. -/
def hPushNull (st : HState) : Option HState :=
  if st.memberVal then fillMember st .jnull
  else
    match convertedFor .ARRAY st with
    | none => none
    | some (_, st2) => some (pushValCell st2 .jnull)

/-- Handler::pushBool. -/
def hPushBool (st : HState) (b : Bool) : Option HState :=
  if st.memberVal then fillMember st (if b then .jtrue else .jfalse)
  else
    match convertedFor .BARRAY st with
    | none => none
    | some (true, st2) =>
      some { st2 with stack := writeCell st2.stack st2.size (.rawB b),
                      size := st2.size + 1 }
    | some (false, st2) => some (pushValCell st2 (if b then .jtrue else .jfalse))

/-- Handler::pushInt64. -/
def hPushInt64 (st : HState) (i : Int) : Option HState :=
  if st.memberVal then fillMember st (.jint i)
  else
    match convertedFor .IARRAY st with
    | none => none
    | some (true, st2) =>
      if st2.arrayType = .IARRAY then
        some { st2 with stack := writeCell st2.stack st2.size (.rawI i),
                        size := st2.size + 8 }
      else if st2.arrayType = .DARRAY then
        some { st2 with stack := writeCell st2.stack st2.size (.rawD (i : Rat)),
                        size := st2.size + 8 }
      else none
    | some (false, st2) => some (pushValCell st2 (.jint i))

/-- Handler::pushUInt64: values within int64 range take the pushInt64 path
(preferred because of IARRAY); only larger values produce a UInt64 cell. -/
def hPushUInt64 (st : HState) (u : Nat) : Option HState :=
  if u ≤ 9223372036854775807 then hPushInt64 st (u : Int)
  else if st.memberVal then fillMember st (.juint u)
  else
    match convertedFor .ARRAY st with
    | none => none
    | some (_, st2) => some (pushValCell st2 (.juint u))

/-- Handler::pushUInt: forwards to pushInt64 after a value-preserving
widening cast. -/
def hPushUInt (st : HState) (u : Nat) : Option HState :=
  hPushInt64 st (u : Int)

/-- Handler::pushInt. -/
def hPushInt (st : HState) (i : Int) : Option HState :=
  hPushInt64 st i

/-- Handler::pushDouble. -/
def hPushDouble (st : HState) (d : Rat) : Option HState :=
  if st.memberVal then fillMember st (.jdouble d)
  else
    match convertedFor .DARRAY st with
    | none => none
    | some (true, st2) =>
      some { st2 with stack := writeCell st2.stack st2.size (.rawD d),
                      size := st2.size + 8 }
    | some (false, st2) => some (pushValCell st2 (.jdouble d))

/-- Handler::inPlaceValue(void*, char*, int32_t), the copying overload:
the short branch passes the RAW length argument (possibly -1) to the
JValue short-string constructor, whose isShort assertion receives it
converted to uint32 (4294967295 for -1, failing the assertion; the
release build memcpy of that many bytes is undefined).  The long branch
interns an owned copy. -/
def inPlaceStringCopy (hash : ByteStr → Nat) (p : Pool) (s : ByteStr)
    (len : Int) : Option (Pool × JVal) :=
  let minLen : Nat := if 0 ≤ len then len.toNat else minStringLength s
  if minLen < shortStringMaxSize then
    let len32 : Nat := (len % (2 ^ 32 : Int)).toNat
    if len32 ≤ shortStringMaxLen then some (p, .jsstring (s.take len32))
    else none
  else
    let r := poolProvide hash p (if 0 ≤ len then s.take len.toNat else s)
      true false
    some (r.1, .jlstring r.2.1.s)

/-- Handler::inPlaceValue(void*, const char*, int32_t), the borrowing
overload: identical to the editor's classification block (classifyString)
with own = false. -/
def inPlaceString (hash : ByteStr → Nat) (p : Pool) (s : ByteStr)
    (copy : Bool) (len : Int) : Option (Pool × JVal) :=
  if copy then inPlaceStringCopy hash p s len
  else some (classifyString hash p s len)

/-- Handler::pushString. -/
def hPushString (hash : ByteStr → Nat) (st : HState) (s : ByteStr)
    (copy : Bool) (len : Int) : Option HState :=
  if st.memberVal then
    match inPlaceString hash st.pool s copy len with
    | none => none
    | some (p2, v) =>
      (fillMember st v).map fun st2 => { st2 with pool := p2 }
  else
    match convertedFor .ARRAY st with
    | none => none
    | some (_, st2) =>
      match inPlaceString hash st2.pool s copy len with
      | none => none
      | some (p2, v) => some { pushValCell st2 v with pool := p2 }

/-- Handler::pushKey: a member cell with the interned key (key flag set,
owned when copied) and a Null value is pushed; mMemberVal is set. -/
def hPushKey (hash : ByteStr → Nat) (st : HState) (s : ByteStr)
    (copy : Bool) (len : Int) : Option HState :=
  if st.memberVal then none
  else
    let eff := if 0 ≤ len then s.take len.toNat else s
    let pr := poolProvide hash st.pool eff copy true
    some { st with pool := pr.1,
                   stack := writeCell st.stack st.size (.memb pr.2.1.s .jnull),
                   size := st.size + 24,
                   memberVal := true }

/-- Handler::startObject. -/
def hStartObject (st : HState) : Option HState :=
  if st.rootInit = false then
    some { st with root := .jobject [], rootInit := true }
  else if st.memberVal then fillMember st (.jobject [])
  else
    match convertedFor .ARRAY st with
    | none => none
    | some (_, st2) => some (pushValCell st2 (.jobject []))

/-- Handler::startArray: like startObject, then reset the pending-array
tracking. -/
def hStartArray (st : HState) : Option HState :=
  let st3? : Option HState :=
    if st.rootInit = false then
      some { st with root := .jarray [], rootInit := true }
    else if st.memberVal then fillMember st (.jarray [])
    else
      match convertedFor .ARRAY st with
      | none => none
      | some (_, st2) => some (pushValCell st2 (.jarray []))
  st3?.map fun st3 => { st3 with arraySize := 0, arrayType := .NUL }

/-- Handler::endObject: move the trailing run of member cells into the
allocator (list model), decrement the stack counter, and write the object
cell into the enclosing slot. -/
def hEndObject (st : HState) (memberCount : Nat) : Option HState :=
  if st.memberVal then none
  else
    let done? : Option HState :=
      if memberCount = 0 then some st
      else
        let memSize := memberCount * 24
        if st.size < memSize then none
        else
          match readMembs st.stack (st.size - memSize) memberCount with
          | none => none
          | some ms => placeValue st (st.size - memSize) (.jobject ms) .OBJECT
    done?.map fun st2 => { st2 with arrayType := .ARRAY }

/-- Handler::endArray: move the trailing run (layout given by the pending
specialization) into the allocator, decrement, write the array cell into
the enclosing slot. -/
def hEndArray (st : HState) (elementCount : Nat) : Option HState :=
  if st.memberVal then none
  else
    let done? : Option HState :=
      if elementCount = 0 then some st
      else
        match st.arrayType with
        | .ARRAY =>
          let memSize := elementCount * 16
          if st.size < memSize then none
          else
            match readVals st.stack (st.size - memSize) elementCount with
            | none => none
            | some vs => placeValue st (st.size - memSize) (.jarray vs) .ARRAY
        | .BARRAY =>
          let memSize := elementCount * 1
          if st.size < memSize then none
          else
            match readRawBs st.stack (st.size - memSize) elementCount with
            | none => none
            | some bs => placeValue st (st.size - memSize) (.jbarray bs) .ARRAY
        | .IARRAY =>
          let memSize := elementCount * 8
          if st.size < memSize then none
          else
            match readRawIs st.stack (st.size - memSize) elementCount with
            | none => none
            | some is => placeValue st (st.size - memSize) (.jiarray is) .ARRAY
        | .DARRAY =>
          let memSize := elementCount * 8
          if st.size < memSize then none
          else
            match readRawDs st.stack (st.size - memSize) elementCount with
            | none => none
            | some ds => placeValue st (st.size - memSize) (.jdarray ds) .ARRAY
        | _ => none
    done?.map fun st2 => { st2 with arrayType := .ARRAY }

/-- The handler event alphabet. -/
inductive HEvent where
  | startObject
  | endObject (n : Nat)
  | startArray
  | endArray (n : Nat)
  | pushKey (s : ByteStr) (copy : Bool) (len : Int)
  | pushNull
  | pushBool (b : Bool)
  | pushInt (i : Int)
  | pushUInt (u : Nat)
  | pushInt64 (i : Int)
  | pushUInt64 (u : Nat)
  | pushDouble (d : Rat)
  | pushString (s : ByteStr) (copy : Bool) (len : Int)

/-- Dispatch one event. -/
def hStep (hash : ByteStr → Nat) (e : HEvent) (st : HState) : Option HState :=
  match e with
  | .startObject => hStartObject st
  | .endObject n => hEndObject st n
  | .startArray => hStartArray st
  | .endArray n => hEndArray st n
  | .pushKey s copy len => hPushKey hash st s copy len
  | .pushNull => hPushNull st
  | .pushBool b => hPushBool st b
  | .pushInt i => hPushInt st i
  | .pushUInt u => hPushUInt st u
  | .pushInt64 i => hPushInt64 st i
  | .pushUInt64 u => hPushUInt64 st u
  | .pushDouble d => hPushDouble st d
  | .pushString s copy len => hPushString hash st s copy len

/-- A fresh handler on a fresh document (Null root, empty pool, 1-KiB
stack buffer whose capacity the model leaves implicit). -/
def hInit (allowIntToDouble : Bool) : HState :=
  { root := .jnull, pool := Pool.empty, stack := [], size := 0,
    memberVal := false, rootInit := false, intToDouble := allowIntToDouble,
    arraySize := 0, arrayType := .NUL }

/-- Run a list of events. -/
def runEvents (hash : ByteStr → Nat) (es : List HEvent) (st : HState) :
    Option HState :=
  match es with
  | [] => some st
  | e :: rest =>
    match hStep hash e st with
    | none => none
    | some st2 => runEvents hash rest st2

/-! ## Slab pool allocator, nominal scheme (PoolAllocator.h)

Chunks carry their byte array; dead cells are the 4-byte {size, next}
records written into freed regions exactly as DeadCell::set does.  A raw
pointer is the (chunk index, offset) pair; deallocate's binary search over
the address-sorted chunk vector recovers exactly this pair, and
sortNewChunk is the identity under the assumption that the base allocator
returns increasing addresses (irrelevant below: the scenario uses one
chunk).  The alignment is alignof(JBigObject) = 8 on the 64-bit target;
DeadCellSize = 4. -/

structure AChunk where
  firstAvail : Nat
  firstDead : Nat
  totalDead : Nat
  data : List Nat
deriving DecidableEq, Repr

structure AState where
  lastChunk : Nat
  totalDead : Nat
  chunks : List AChunk
  fallbacks : List Nat
deriving DecidableEq, Repr

/-- PoolAllocator::alignSize with alignment 8. -/
def alignSize (size : Nat) : Nat :=
  let floor := size / 8 * 8
  if size = floor then floor else floor + 8

/-- PoolAllocator::chunkable. -/
def chunkable (cs alignedSize : Nat) : Bool := alignedSize ≤ cs

/-- DeadCell::setSize: two little-endian bytes at the region start. -/
def dcSetSize (data : List Nat) (pos size : Nat) : List Nat :=
  (data.set pos (size % 256)).set (pos + 1) (size / 256 % 256)

/-- DeadCell::setNext: two little-endian bytes at offset +2. -/
def dcSetNext (data : List Nat) (pos next : Nat) : List Nat :=
  (data.set (pos + 2) (next % 256)).set (pos + 3) (next / 256 % 256)

/-- DeadCell::getSize. -/
def dcGetSize (data : List Nat) (pos : Nat) : Nat :=
  data.getD pos 0 + 256 * data.getD (pos + 1) 0

/-- DeadCell::getNext. -/
def dcGetNext (data : List Nat) (pos : Nat) : Nat :=
  data.getD (pos + 2) 0 + 256 * data.getD (pos + 3) 0

/-- A chunk fresh from the base allocator (bytes zeroed for determinism;
the code leaves them uninitialised and never reads them before writing). -/
def freshChunk (cs : Nat) : AChunk :=
  { firstAvail := 0, firstDead := cs, totalDead := 0,
    data := List.replicate cs 0 }

/-- Outcome of the freelist walk in PoolAllocator::allocateFromDead. -/
inductive AfdRes where
  | hit (pos : Nat) (ch : AChunk)
  | miss (smallestDead smallestSize : Nat)
deriving Repr

/-- The while loop of allocateFromDead: exact fit unlinks the cell; a cell
at least twice the request is split from its tail; otherwise the smallest
larger cell is remembered.  Fuel bounds the walk (the freelist of a
well-formed chunk is acyclic; none stands for a corrupt freelist). -/
def afdLoop (cs size : Nat) (ch : AChunk) :
    Nat → Nat → Nat → Nat → Nat → Option AfdRes
  | 0, _, _, _, _ => none
  | fuel + 1, cur, prev, smallestDead, smallestSize =>
    if cur < cs then
      let deadSize := dcGetSize ch.data cur
      if deadSize = size then
        let ch2 :=
          if prev ≥ cs then { ch with firstDead := dcGetNext ch.data cur }
          else { ch with data := dcSetNext ch.data prev (dcGetNext ch.data cur) }
        some (.hit cur { ch2 with totalDead := ch2.totalDead - size })
      else if deadSize ≥ 2 * size then
        let ds2 := deadSize - size
        some (.hit (cur + ds2)
          { ch with data := dcSetSize ch.data cur ds2,
                    totalDead := ch.totalDead - size })
      else
        afdLoop cs size ch fuel (dcGetNext ch.data cur) cur
          (if deadSize < smallestSize ∧ deadSize > size then cur else smallestDead)
          (if deadSize < smallestSize ∧ deadSize > size then deadSize
           else smallestSize)
    else some (.miss smallestDead smallestSize)

/-- PoolAllocator::allocateFromDead: outer none = corrupt freelist, inner
none = no dead cell can serve the request. -/
def allocFromDead (cs : Nat) (ch : AChunk) (size : Nat) :
    Option (Option (Nat × AChunk)) :=
  if ch.totalDead ≥ size then
    match afdLoop cs size ch (cs + 1) ch.firstDead cs cs cs with
    | none => none
    | some (.hit pos ch2) => some (some (pos, ch2))
    | some (.miss sd ss) =>
      if sd < cs then
        let ss2 := ss - size
        some (some (sd + ss2,
          { ch with data := dcSetSize ch.data sd ss2,
                    totalDead := ch.totalDead - size }))
      else some none
  else some none

/-- First other chunk with enough tail room (the first for loop over the
other chunks in allocate). -/
def findOtherAvail (cs aligned : Nat) (chunks : List AChunk) (last : Nat) :
    Option Nat :=
  (List.range chunks.length).find? fun i =>
    decide (i ≠ last ∧ cs - (chunks.getD i (freshChunk cs)).firstAvail ≥ aligned)

/-- The second for loop of allocate: try the freelists of the other
chunks in order. -/
def othersDead (cs aligned : Nat) (chunks : List AChunk) (last : Nat) :
    List Nat → Option (Option (Nat × Nat × AChunk))
  | [] => some none
  | i :: rest =>
    if i = last then othersDead cs aligned chunks last rest
    else
      match allocFromDead cs (chunks.getD i (freshChunk cs)) aligned with
      | none => none
      | some (some (pos, ch2)) => some (some (i, pos, ch2))
      | some none => othersDead cs aligned chunks last rest

/-- PoolAllocator::allocate, nominal scheme. -/
def aAllocate (cs : Nat) (st : AState) (size : Nat) :
    Option ((Nat × Nat) × AState) :=
  let aligned := alignSize size
  if chunkable cs aligned then
    let st := if st.chunks.isEmpty then
        { st with chunks := [freshChunk cs], lastChunk := 0 }
      else st
    let last := st.lastChunk
    let lch := st.chunks.getD last (freshChunk cs)
    if cs - lch.firstAvail ≥ aligned then
      some ((last, lch.firstAvail),
        { st with chunks :=
            st.chunks.set last { lch with firstAvail := lch.firstAvail + aligned } })
    else
      match allocFromDead cs lch aligned with
      | none => none
      | some (some (pos, ch2)) =>
        some ((last, pos),
          { st with chunks := st.chunks.set last ch2,
                    totalDead := st.totalDead - aligned })
      | some none =>
        match findOtherAvail cs aligned st.chunks last with
        | some i =>
          let ch := st.chunks.getD i (freshChunk cs)
          some ((i, ch.firstAvail),
            { st with lastChunk := i,
                      chunks :=
                        st.chunks.set i { ch with firstAvail := ch.firstAvail + aligned } })
        | none =>
          let od? :=
            if st.totalDead ≥ aligned then
              othersDead cs aligned st.chunks last (List.range st.chunks.length)
            else some none
          match od? with
          | none => none
          | some (some (i, pos, ch2)) =>
            some ((i, pos),
              { st with chunks := st.chunks.set i ch2,
                        totalDead := st.totalDead - aligned })
          | some none =>
            let idx := st.chunks.length
            some ((idx, 0),
              { st with chunks :=
                  st.chunks ++ [{ freshChunk cs with firstAvail := aligned }],
                        lastChunk := idx })
  else
    some ((65534, st.fallbacks.length),
      { st with fallbacks := size :: st.fallbacks })

/-- PoolAllocator::deallocate, nominal scheme.  The uint32 conversions in
the last-used neighbour search follow C unsigned arithmetic. -/
def aDeallocate (cs : Nat) (st : AState) (ptr : Nat × Nat) (size : Nat) :
    Option AState :=
  let aligned := alignSize size
  if chunkable cs aligned then
    if ptr.1 < st.chunks.length then
      let ci := ptr.1
      let pos := ptr.2
      let chunk := st.chunks.getD ci (freshChunk cs)
      if chunk.totalDead + aligned = chunk.firstAvail then
        let st2 := { st with
          totalDead := st.totalDead - chunk.totalDead,
          chunks := st.chunks.set ci
            { chunk with firstAvail := 0, firstDead := cs, totalDead := 0 } }
        if st2.lastChunk = ci ∧ st2.chunks.length > 1 then
          let prevIdx := ((st2.lastChunk + 2 ^ 32 - 1) % 2 ^ 32) % st2.chunks.length
          if (st2.chunks.getD prevIdx (freshChunk cs)).firstAvail < cs then
            some { st2 with lastChunk := prevIdx }
          else
            let nextIdx := (st2.lastChunk + 1) % st2.chunks.length
            if (st2.chunks.getD nextIdx (freshChunk cs)).firstAvail < cs then
              some { st2 with lastChunk := nextIdx }
            else some st2
        else some st2
      else if pos + aligned = chunk.firstAvail then
        some { st with chunks := st.chunks.set ci { chunk with firstAvail := pos } }
      else
        some { st with
          totalDead := st.totalDead + aligned,
          chunks := st.chunks.set ci
            { chunk with
                data := dcSetNext (dcSetSize chunk.data pos aligned) pos chunk.firstDead,
                firstDead := pos,
                totalDead := chunk.totalDead + aligned } }
    else none
  else
    match st.fallbacks.indexOf? size with
    | some i => some { st with fallbacks := st.fallbacks.eraseIdx i }
    | none => none

/-- The empty allocator. -/
def aEmpty : AState := { lastChunk := 0, totalDead := 0, chunks := [], fallbacks := [] }

/-- The C7 scenario prefix: three 16-byte allocations A, B, C from a fresh
64-byte-chunk allocator, then deallocation of B.  Returns the three
pointers and the resulting state. -/
def c7setup : Option ((Nat × Nat) × (Nat × Nat) × (Nat × Nat) × AState) :=
  (aAllocate 64 aEmpty 16).bind fun r1 =>
  (aAllocate 64 r1.2 16).bind fun r2 =>
  (aAllocate 64 r2.2 16).bind fun r3 =>
  (aDeallocate 64 r3.2 r2.1 16).map fun st => (r1.1, r2.1, r3.1, st)

/-- The allocate(15) following the C7 setup. -/
def c7next : Option ((Nat × Nat) × AState) :=
  c7setup.bind fun r => aAllocate 64 r.2.2.2 15

/-- A second allocate(15) after that. -/
def c7second : Option ((Nat × Nat) × AState) :=
  c7next.bind fun r => aAllocate 64 r.2 15

theorem memCmp_self (a : ByteStr) : memCmp a a = .eq := by
  induction a with
  | nil => rfl
  | cons x xs ih => simp [memCmp, Nat.compare_eq_eq.mpr rfl, ih]

theorem memCmp_eq_iff {a b : ByteStr} : memCmp a b = .eq ↔ a = b := by
  induction a generalizing b with
  | nil => cases b <;> simp [memCmp]
  | cons x xs ih =>
    cases b with
    | nil => simp [memCmp]
    | cons y ys =>
      rcases h : compare x y with hc | hc | hc
      · have hne : x ≠ y := by
          intro he; rw [he, Nat.compare_eq_eq.mpr rfl] at h; cases h
        simp [memCmp, h, hne]
      · have hxy : x = y := Nat.compare_eq_eq.mp h
        subst hxy
        simp [memCmp, h, ih]
      · have hne : x ≠ y := by
          intro he; rw [he, Nat.compare_eq_eq.mpr rfl] at h; cases h
        simp [memCmp, h, hne]

theorem memCmp_swap (a b : ByteStr) : (memCmp a b).swap = memCmp b a := by
  induction a generalizing b with
  | nil => cases b <;> rfl
  | cons x xs ih =>
    cases b with
    | nil => rfl
    | cons y ys =>
      have hsw : compare y x = (compare x y).swap := (Nat.compare_swap x y).symm
      rcases h : compare x y with hc | hc | hc
      · simp [memCmp, h, hsw, Ordering.swap]
      · simpa [memCmp, h, hsw] using ih ys
      · simp [memCmp, h, hsw, Ordering.swap]

theorem memCmp_lt_trans {a b c : ByteStr} (hab : memCmp a b = .lt)
    (hbc : memCmp b c = .lt) : memCmp a c = .lt := by
  induction a generalizing b c with
  | nil =>
    cases b with
    | nil => exact absurd hab (by simp [memCmp])
    | cons y ys =>
      cases c with
      | nil => exact absurd hbc (by simp [memCmp])
      | cons z zs => simp [memCmp]
  | cons x xs ih =>
    cases b with
    | nil => exact absurd hab (by simp [memCmp])
    | cons y ys =>
      cases c with
      | nil => exact absurd hbc (by simp [memCmp])
      | cons z zs =>
        rcases hxy : compare x y with h1 | h1 | h1 <;> simp [memCmp, hxy] at hab
        · rcases hyz : compare y z with h2 | h2 | h2 <;> simp [memCmp, hyz] at hbc
          · have hxz : compare x z = .lt :=
              Nat.compare_eq_lt.mpr
                (lt_trans (Nat.compare_eq_lt.mp hxy) (Nat.compare_eq_lt.mp hyz))
            simp [memCmp, hxz]
          · have hyz2 : y = z := Nat.compare_eq_eq.mp hyz
            subst hyz2
            simp [memCmp, hxy]
        · have hxy2 : x = y := Nat.compare_eq_eq.mp hxy
          subst hxy2
          rcases hyz : compare x z with h2 | h2 | h2 <;> simp [memCmp, hyz] at hbc ⊢
          exact ih hab hbc

theorem jcmp_eq_iff {a b : ByteStr} : jcmp a b = .eq ↔ a = b := by
  unfold jcmp
  rcases lt_trichotomy a.length b.length with h | h | h
  · simp only [h, if_pos]
    constructor
    · intro hc; cases hc
    · rintro rfl; exact absurd h (lt_irrefl _)
  · simp only [h, lt_irrefl, if_neg, if_false, reduceIte]
    exact memCmp_eq_iff
  · rw [if_neg (not_lt_of_gt h), if_pos h]
    constructor
    · intro hc; cases hc
    · rintro rfl; exact absurd h (lt_irrefl _)

theorem jcmp_self (a : ByteStr) : jcmp a a = .eq := jcmp_eq_iff.mpr rfl

theorem jcmp_lt_char {a b : ByteStr} :
    jcmp a b = .lt ↔ a.length < b.length ∨ (a.length = b.length ∧ memCmp a b = .lt) := by
  unfold jcmp
  rcases lt_trichotomy a.length b.length with h | h | h
  · simp [h]
  · simp [h, lt_irrefl]
  · rw [if_neg (not_lt_of_gt h), if_pos h]
    simp [not_lt_of_gt h, (ne_of_gt h)]

theorem jcmp_gt_char {a b : ByteStr} :
    jcmp a b = .gt ↔ b.length < a.length ∨ (a.length = b.length ∧ memCmp a b = .gt) := by
  unfold jcmp
  rcases lt_trichotomy a.length b.length with h | h | h
  · rw [if_pos h]
    simp [not_lt_of_gt h, (ne_of_lt h), h]
  · simp [h, lt_irrefl]
  · rw [if_neg (not_lt_of_gt h), if_pos h]
    simp [h]

theorem memCmp_lt_iff_gt {a b : ByteStr} : memCmp a b = .lt ↔ memCmp b a = .gt := by
  constructor
  · intro hm
    rw [← memCmp_swap a b, hm]; rfl
  · intro hm
    have hs := memCmp_swap b a
    rw [hm] at hs
    cases hx : memCmp a b
    · rfl
    · rw [hx] at hs; cases hs
    · rw [hx] at hs; cases hs

theorem jcmp_lt_iff_gt {a b : ByteStr} : jcmp a b = .lt ↔ jcmp b a = .gt := by
  rw [jcmp_lt_char, jcmp_gt_char]
  constructor
  · rintro (h | ⟨h, hm⟩)
    · exact Or.inl h
    · exact Or.inr ⟨h.symm, memCmp_lt_iff_gt.mp hm⟩
  · rintro (h | ⟨h, hm⟩)
    · exact Or.inl h
    · exact Or.inr ⟨h.symm, memCmp_lt_iff_gt.mpr hm⟩

theorem jcmp_lt_trans {a b c : ByteStr} (hab : jcmp a b = .lt)
    (hbc : jcmp b c = .lt) : jcmp a c = .lt := by
  rw [jcmp_lt_char] at hab hbc ⊢
  rcases hab with h1 | ⟨h1, m1⟩ <;> rcases hbc with h2 | ⟨h2, m2⟩
  · exact Or.inl (lt_trans h1 h2)
  · exact Or.inl (h2 ▸ h1)
  · exact Or.inl (h1 ▸ h2)
  · exact Or.inr ⟨h1.trans h2, memCmp_lt_trans m1 m2⟩

theorem jcmp_lt_irrefl (a : ByteStr) : jcmp a a ≠ .lt := by
  rw [jcmp_self]; intro h; cases h

theorem jcmp_lt_ne {a b : ByteStr} (h : jcmp a b = .lt) : a ≠ b := by
  rintro rfl; exact jcmp_lt_irrefl a h

/-! ### Chain lemmas -/

theorem pushNewString_perm (x : JStr) (c : List JStr) :
    List.Perm (pushNewString x c) (x :: c) := by
  induction c with
  | nil => simp [pushNewString]
  | cons e rest ih =>
    rcases h : jcmp e.s x.s with hc | hc | hc
    · simp only [pushNewString, h]
      exact (ih.cons e).trans (List.Perm.swap x e rest)
    · simp only [pushNewString, h]
      exact (ih.cons e).trans (List.Perm.swap x e rest)
    · simp [pushNewString, h]

theorem mem_pushNewString {x y : JStr} {c : List JStr} :
    y ∈ pushNewString x c ↔ y = x ∨ y ∈ c := by
  rw [(pushNewString_perm x c).mem_iff]
  simp

theorem length_pushNewString (x : JStr) (c : List JStr) :
    (pushNewString x c).length = c.length + 1 := by
  simpa using (pushNewString_perm x c).length_eq

theorem pushNewString_sorted {x : JStr} {c : List JStr}
    (hs : c.Pairwise chainLt) (hne : ∀ y ∈ c, y.s ≠ x.s) :
    (pushNewString x c).Pairwise chainLt := by
  induction c with
  | nil => simp [pushNewString]
  | cons e rest ih =>
    rcases hp : jcmp e.s x.s with hc | hc | hc
    · simp only [pushNewString, hp]
      rw [List.pairwise_cons]
      refine ⟨?_, ?_⟩
      · intro y hy
        rcases mem_pushNewString.mp hy with rfl | hy2
        · exact hp
        · exact (List.pairwise_cons.mp hs).1 y hy2
      · exact ih (List.pairwise_cons.mp hs).2 fun y hy => hne y (List.mem_cons_of_mem e hy)
    · exact absurd (jcmp_eq_iff.mp hp) (hne e (List.mem_cons_self e rest))
    · simp only [pushNewString, hp]
      rw [List.pairwise_cons]
      refine ⟨?_, hs⟩
      intro y hy
      rcases hy with _ | hy2
      · exact jcmp_lt_iff_gt.mpr hp
      · have hxe : chainLt x e := jcmp_lt_iff_gt.mpr hp
        exact jcmp_lt_trans hxe ((List.pairwise_cons.mp hs).1 _ (by assumption))

theorem chainInsert_found {x e : JStr} {c c2 : List JStr}
    (h : chainInsert x c = .found e c2) :
    e.s = x.s ∧ c2.map JStr.s = c.map JStr.s ∧ c2.length = c.length ∧
      (∀ y ∈ c2, y.s = x.s ∨ y ∈ c) ∧
      (c.Pairwise chainLt → c2.Pairwise chainLt) := by
  induction c generalizing c2 with
  | nil => simp [chainInsert] at h
  | cons f rest ih =>
    rcases hp : jcmp f.s x.s with hc | hc | hc
    · simp only [chainInsert, hp] at h
      cases hrec : chainInsert x rest with
      | inserted c3 => rw [hrec] at h; cases h
      | found e3 c3 =>
        rw [hrec] at h
        cases h
        obtain ⟨h1, h2, h3, h4, h5⟩ := ih hrec
        refine ⟨h1, by simp [h2], by simp [h3], ?_, ?_⟩
        · intro y hy
          rcases hy with _ | hy2
          · exact Or.inr (List.mem_cons_self f rest)
          · rcases h4 y (by assumption) with h6 | h6
            · exact Or.inl h6
            · exact Or.inr (List.mem_cons_of_mem f h6)
        · intro hsrt
          rw [List.pairwise_cons] at hsrt ⊢
          refine ⟨?_, h5 hsrt.2⟩
          intro y hy
          rcases h4 y hy with h6 | h6
          · unfold chainLt
            rw [h6]
            exact hp
          · exact hsrt.1 y h6
    · simp only [chainInsert, hp] at h
      cases h
      have hes : f.s = x.s := jcmp_eq_iff.mp hp
      refine ⟨hes, by simp, by simp, ?_, ?_⟩
      · intro y hy
        rcases hy with _ | hy2
        · exact Or.inl hes
        · exact Or.inr (List.mem_cons_of_mem f (by assumption))
      · intro hsrt
        rw [List.pairwise_cons] at hsrt ⊢
        refine ⟨?_, hsrt.2⟩
        intro y hy
        unfold chainLt
        exact hsrt.1 y hy
    · simp only [chainInsert, hp] at h
      cases h

theorem chainInsert_inserted_perm {x : JStr} {c c2 : List JStr}
    (h : chainInsert x c = .inserted c2) : List.Perm c2 (x :: c) := by
  induction c generalizing c2 with
  | nil =>
    simp only [chainInsert] at h
    cases h
    rfl
  | cons f rest ih =>
    rcases hp : jcmp f.s x.s with hc | hc | hc
    · simp only [chainInsert, hp] at h
      cases hrec : chainInsert x rest with
      | found e3 c3 => rw [hrec] at h; cases h
      | inserted c3 =>
        rw [hrec] at h
        cases h
        exact ((ih hrec).cons f).trans (List.Perm.swap x f rest)
    · simp only [chainInsert, hp] at h
      cases h
    · simp only [chainInsert, hp] at h
      cases h
      rfl

theorem chainInsert_inserted_sorted {x : JStr} {c c2 : List JStr}
    (hs : c.Pairwise chainLt) (h : chainInsert x c = .inserted c2) :
    c2.Pairwise chainLt := by
  induction c generalizing c2 with
  | nil =>
    simp only [chainInsert] at h
    cases h
    simp
  | cons f rest ih =>
    rcases hp : jcmp f.s x.s with hc | hc | hc
    · simp only [chainInsert, hp] at h
      cases hrec : chainInsert x rest with
      | found e3 c3 => rw [hrec] at h; cases h
      | inserted c3 =>
        rw [hrec] at h
        cases h
        rw [List.pairwise_cons] at hs ⊢
        refine ⟨?_, ih hs.2 hrec⟩
        intro y hy
        rcases List.mem_cons.mp ((chainInsert_inserted_perm hrec).mem_iff.mp hy) with rfl | hy2
        · exact hp
        · exact hs.1 y hy2
    · simp only [chainInsert, hp] at h
      cases h
    · simp only [chainInsert, hp] at h
      cases h
      rw [List.pairwise_cons]
      refine ⟨?_, hs⟩
      intro y hy
      rcases List.mem_cons.mp hy with rfl | hy2
      · exact jcmp_lt_iff_gt.mpr hp
      · have hxf : chainLt x f := jcmp_lt_iff_gt.mpr hp
        exact jcmp_lt_trans hxf ((List.pairwise_cons.mp hs).1 _ hy2)

theorem chainInsert_found_iff {x : JStr} {c : List JStr} (hs : c.Pairwise chainLt) :
    (∃ e c2, chainInsert x c = .found e c2) ↔ x.s ∈ c.map JStr.s := by
  induction c with
  | nil => simp [chainInsert]
  | cons f rest ih =>
    rcases hp : jcmp f.s x.s with hc | hc | hc
    · have hfx : f.s ≠ x.s := by
        intro he
        rw [he, jcmp_self] at hp
        cases hp
      cases hrec : chainInsert x rest with
      | found e3 c3 =>
        simp only [chainInsert, hp, hrec, List.map_cons, List.mem_cons]
        constructor
        · intro _
          exact Or.inr ((ih (List.pairwise_cons.mp hs).2).mp ⟨e3, c3, hrec⟩)
        · intro _
          exact ⟨e3, f :: c3, rfl⟩
      | inserted c3 =>
        simp only [chainInsert, hp, hrec, List.map_cons, List.mem_cons]
        constructor
        · rintro ⟨e4, c4, h4⟩
          cases h4
        · rintro (he | hin)
          · exact absurd he.symm hfx
          · obtain ⟨e4, c4, h4⟩ := (ih (List.pairwise_cons.mp hs).2).mpr hin
            rw [h4] at hrec
            cases hrec
    · simp only [chainInsert, hp]
      have hfs : f.s = x.s := jcmp_eq_iff.mp hp
      simp [hfs.symm]
    · -- head is greater than the probe: in a sorted chain nothing equals x
      simp only [chainInsert, hp]
      constructor
      · rintro ⟨e4, c4, h4⟩
        cases h4
      · intro hmem
        exfalso
        simp only [List.map_cons, List.mem_cons] at hmem
        rcases hmem with he | hin
        · rw [← he, jcmp_self] at hp
          cases hp
        · obtain ⟨y, hy, hys⟩ := List.mem_map.mp hin
          have hfy : chainLt f y := (List.pairwise_cons.mp hs).1 y hy
          have hfltx : jcmp f.s x.s = .lt := by
            unfold chainLt at hfy
            rw [hys] at hfy
            exact hfy
          rw [hfltx] at hp
          cases hp

/-! ### Bucket array lemmas -/

theorem getD_set_self {α : Type} {l : List (List α)} {i : Nat} {c : List α}
    (h : i < l.length) : (l.set i c).getD i [] = c := by
  rw [List.getD_eq_getElem?_getD, List.getElem?_set_self (by simpa using h)]
  rfl

theorem getD_set_ne {α : Type} {l : List (List α)} {i j : Nat} {c : List α}
    (h : i ≠ j) : (l.set i c).getD j [] = l.getD j [] := by
  rw [List.getD_eq_getElem?_getD, List.getElem?_set_ne h, ← List.getD_eq_getElem?_getD]

theorem natSum_set {l : List Nat} {i a : Nat} (h : i < l.length) :
    (l.set i a).sum + l.getD i 0 = l.sum + a := by
  induction l generalizing i with
  | nil => cases h
  | cons x xs ih =>
    cases i with
    | zero => simp [List.getD_cons_zero, Nat.add_comm, Nat.add_left_comm]
    | succ j =>
      have hj : j < xs.length := by simpa using h
      simp only [List.set_cons_succ, List.sum_cons, List.getD_cons_succ]
      have := ih hj
      omega

theorem flatten_set_push_perm {bks : List (List JStr)} {i : Nat} {x : JStr}
    (h : i < bks.length) :
    List.Perm (bks.set i (pushNewString x (bks.getD i []))).flatten
      (x :: bks.flatten) := by
  induction bks generalizing i with
  | nil => cases h
  | cons c rest ih =>
    cases i with
    | zero =>
      simp only [List.set_cons_zero, List.flatten_cons, List.getD_cons_zero]
      exact (pushNewString_perm x c).append_right rest.flatten
    | succ j =>
      have hj : j < rest.length := by simpa using h
      simp only [List.set_cons_succ, List.flatten_cons, List.getD_cons_succ]
      exact ((ih hj).append_left c).trans (List.perm_middle)

theorem getD_eq_getElem {α : Type} {l : List (List α)} {i : Nat}
    (h : i < l.length) : l.getD i [] = l[i] := by
  rw [List.getD_eq_getElem?_getD, List.getElem?_eq_getElem h]
  rfl

/-- Distinct strings across a well-formed pool (spec invariant 8 follows
from invariants on chains and homes). -/
theorem poolWf_noDup {hash : ByteStr → Nat} {p : Pool}
    (hs : chainsSorted p) (hh : homeOk hash p) : poolNoDup p := by
  unfold poolNoDup
  rw [List.Nodup, List.pairwise_map, List.pairwise_flatten]
  constructor
  · intro c hc
    exact ((hs c hc).imp fun hlt => jcmp_lt_ne hlt)
  · rw [List.pairwise_iff_getElem]
    intro i j hi hj hij a ha b hb hab
    have hia : hash a.s % p.buckets.length = i := by
      refine hh i hi a ?_
      rw [getD_eq_getElem hi]
      exact ha
    have hjb : hash b.s % p.buckets.length = j := by
      refine hh j hj b ?_
      rw [getD_eq_getElem hj]
      exact hb
    rw [hab] at hia
    rw [hia] at hjb
    exact absurd hjb (Nat.ne_of_lt hij)

theorem insertAll_ok {hash : ByteStr → Nat} {n : Nat} (hn : 0 < n) :
    ∀ (es : List JStr) (bks : List (List JStr)),
      bucketsOk hash n bks →
      ((es.map JStr.s) ++ (bks.flatten.map JStr.s)).Nodup →
      bucketsOk hash n (insertAll hash n es bks) ∧
        List.Perm (insertAll hash n es bks).flatten (es ++ bks.flatten) := by
  intro es
  induction es with
  | nil =>
    intro bks hok _
    exact ⟨hok, by simp [insertAll]⟩
  | cons e rest ih =>
    intro bks hok hnd
    obtain ⟨hlen, hsrt, hhome⟩ := hok
    set idx := hash e.s % n with hidx
    have hidxlt : idx < n := Nat.mod_lt _ hn
    have hidxlt2 : idx < bks.length := by rw [hlen]; exact hidxlt
    have hnd1 : (e.s :: (rest.map JStr.s ++ bks.flatten.map JStr.s)).Nodup := by
      simpa using hnd
    have hes : e.s ∉ (bks.flatten.map JStr.s) := by
      intro hmem
      exact (List.nodup_cons.mp hnd1).1 (List.mem_append_right _ hmem)
    set bks2 := bks.set idx (pushNewString e (bks.getD idx [])) with hbks2
    have hperm2 : List.Perm bks2.flatten (e :: bks.flatten) :=
      flatten_set_push_perm hidxlt2
    have hok2 : bucketsOk hash n bks2 := by
      refine ⟨by simp [hbks2, hlen], ?_, ?_⟩
      · intro c hc
        rcases List.mem_or_eq_of_mem_set hc with hcold | hcnew
        · exact hsrt c hcold
        · subst hcnew
          refine pushNewString_sorted (hsrt _ ?_) ?_
          · rw [getD_eq_getElem hidxlt2]
            exact bks.getElem_mem hidxlt2
          · intro y hy he2
            apply hes
            refine List.mem_map.mpr ⟨y, ?_, he2⟩
            refine List.mem_flatten.mpr ⟨bks.getD idx [], ?_, hy⟩
            rw [getD_eq_getElem hidxlt2]
            exact bks.getElem_mem hidxlt2
      · intro j hj y hy
        by_cases hji : j = idx
        · subst hji
          rw [hbks2, getD_set_self hidxlt2] at hy
          rcases mem_pushNewString.mp hy with rfl | hy2
          · exact hidx.symm
          · exact hhome idx hj y hy2
        · rw [hbks2, getD_set_ne (fun hh2 => hji hh2.symm)] at hy
          exact hhome j hj y hy
    have hnd2 : ((rest.map JStr.s) ++ (bks2.flatten.map JStr.s)).Nodup := by
      have hp2 : List.Perm (bks2.flatten.map JStr.s) (e.s :: bks.flatten.map JStr.s) := by
        simpa using hperm2.map JStr.s
      have hp3 : List.Perm ((rest.map JStr.s) ++ (bks2.flatten.map JStr.s))
          (e.s :: (rest.map JStr.s ++ bks.flatten.map JStr.s)) :=
        (hp2.append_left (rest.map JStr.s)).trans List.perm_middle
      exact hp3.nodup_iff.mpr hnd1
    obtain ⟨hok3, hperm3⟩ := ih bks2 hok2 hnd2
    constructor
    · exact hok3
    · have h4 : List.Perm (rest ++ bks2.flatten) (rest ++ (e :: bks.flatten)) :=
        hperm2.append_left rest
      have h5 : List.Perm (rest ++ (e :: bks.flatten)) (e :: (rest ++ bks.flatten)) :=
        List.perm_middle
      exact (hperm3.trans h4).trans h5

theorem flatten_replicate_nil {α : Type} (n : Nat) :
    (List.replicate n ([] : List α)).flatten = [] := by
  induction n with
  | zero => rfl
  | succ m ih => simp [List.replicate_succ, ih]

theorem rehash_ok {hash : ByteStr → Nat} {p : Pool} {n : Nat} (hn : 0 < n)
    (hwf : poolWf hash p) :
    poolWf hash (p.rehash hash n) ∧
      List.Perm (p.rehash hash n).buckets.flatten p.buckets.flatten ∧
      (p.rehash hash n).buckets.length = n ∧
      (p.rehash hash n).itemCount = p.itemCount := by
  obtain ⟨hs, hh, hc⟩ := hwf
  have hok0 : bucketsOk hash n (List.replicate n ([] : List JStr)) := by
    refine ⟨by simp, ?_, ?_⟩
    · intro c hc2
      rw [List.eq_of_mem_replicate hc2]
      simp
    · intro i hi y hy
      rw [getD_eq_getElem (by simpa using hi), List.getElem_replicate] at hy
      cases hy
  have hnd0 : ((p.buckets.flatten.map JStr.s) ++
      ((List.replicate n ([] : List JStr)).flatten.map JStr.s)).Nodup := by
    rw [flatten_replicate_nil, List.map_nil, List.append_nil]
    exact poolWf_noDup hs hh
  obtain ⟨hok, hperm⟩ := insertAll_ok hn p.buckets.flatten _ hok0 hnd0
  have hflat : List.Perm (p.rehash hash n).buckets.flatten p.buckets.flatten := by
    have := hperm.trans (by rw [flatten_replicate_nil, List.append_nil])
    exact this
  obtain ⟨hlen, hsrt, hhome⟩ := hok
  refine ⟨⟨?_, ?_, ?_⟩, hflat, hlen, rfl⟩
  · intro c hc2
    exact hsrt c hc2
  · intro i hi y hy
    rw [Pool.rehash] at hi hy ⊢
    simp only at hi hy ⊢
    rw [hlen] at hi ⊢
    exact hhome i hi y hy
  · show p.itemCount = _
    have h1 : p.itemCount = p.buckets.flatten.length := by
      rw [hc, List.length_flatten]
    have h2 : ((p.rehash hash n).buckets.map List.length).sum =
        (p.rehash hash n).buckets.flatten.length := (List.length_flatten _).symm
    rw [h2, hflat.length_eq, ← h1]

theorem poolGrown_ok {hash : ByteStr → Nat} {p : Pool} (hwf : poolWf hash p) :
    poolWf hash (poolGrown hash p) ∧
      List.Perm (poolGrown hash p).buckets.flatten p.buckets.flatten ∧
      (poolGrown hash p).itemCount = p.itemCount ∧
      0 < (poolGrown hash p).buckets.length := by
  unfold poolGrown
  by_cases h1 : p.itemCount + 1 > poolLoadThreshold p.buckets.length
  · rw [if_pos h1]
    by_cases h2 : p.buckets.length < 2147483647
    · rw [if_pos h2]
      have hn : 0 < (if p.buckets.length > 0 then 2 * p.buckets.length else 16) := by
        by_cases h3 : p.buckets.length > 0 <;> simp [h3]
      obtain ⟨hwfr, hperm, hlen, hcnt⟩ := rehash_ok hn hwf
      exact ⟨hwfr, hperm, hcnt, by rw [hlen]; exact hn⟩
    · rw [if_neg h2]
      refine ⟨hwf, List.Perm.refl _, rfl, ?_⟩
      omega
  · rw [if_neg h1]
    refine ⟨hwf, List.Perm.refl _, rfl, ?_⟩
    by_contra hz
    have : p.buckets.length = 0 := by omega
    rw [this] at h1
    simp [poolLoadThreshold] at h1

theorem mem_getD_flatten {bks : List (List JStr)} {i : Nat} {e : JStr}
    (hi : i < bks.length) (he : e ∈ bks.getD i []) : e ∈ bks.flatten := by
  refine List.mem_flatten.mpr ⟨bks.getD i [], ?_, he⟩
  rw [getD_eq_getElem hi]
  exact bks.getElem_mem hi

/-- Sum of chain lengths after replacing the chain at idx. -/
theorem sum_lengths_set {bks : List (List JStr)} {idx : Nat} {c : List JStr}
    (hlt : idx < bks.length) :
    ((bks.set idx c).map List.length).sum + (bks.getD idx []).length =
      (bks.map List.length).sum + c.length := by
  have hmap : (bks.set idx c).map List.length =
      (bks.map List.length).set idx c.length := by
    rw [List.map_set]
  have hlt2 : idx < (bks.map List.length).length := by simpa using hlt
  have h1 := natSum_set (l := bks.map List.length) (i := idx) (a := c.length) hlt2
  have hgd : (bks.map List.length).getD idx 0 = (bks.getD idx []).length := by
    rw [List.getD_eq_getElem?_getD, List.getD_eq_getElem?_getD, List.getElem?_map]
    rw [List.getElem?_eq_getElem hlt]
    rfl
  rw [hmap]
  omega

/-- Well-formedness transported through provide (claim C6 uses this). -/
theorem poolProvide_wf {hash : ByteStr → Nat} {p : Pool} {s : ByteStr}
    {own key : Bool} (hwf : poolWf hash p) :
    poolWf hash (poolProvide hash p s own key).1 := by
  obtain ⟨hwfq, hperm, hcnt, hpos⟩ := @poolGrown_ok hash p hwf
  set q := poolGrown hash p with hq
  obtain ⟨hs, hh, hc⟩ := hwfq
  set idx := hash s % q.buckets.length with hidx
  have hidxlt : idx < q.buckets.length := Nat.mod_lt _ hpos
  have hchain : q.buckets.getD idx [] ∈ q.buckets := by
    rw [getD_eq_getElem hidxlt]
    exact q.buckets.getElem_mem hidxlt
  have hsrtc : (q.buckets.getD idx []).Pairwise chainLt := hs _ hchain
  show poolWf hash
    (match chainInsert ⟨s, own, key⟩ (q.buckets.getD idx []) with
      | .found e c => (Pool.mk (q.buckets.set idx c) q.itemCount, e, true)
      | .inserted c => (Pool.mk (q.buckets.set idx c) (q.itemCount + 1),
          JStr.mk s own key, false)).1
  cases hins : chainInsert ⟨s, own, key⟩ (q.buckets.getD idx []) with
  | found e c =>
    obtain ⟨he1, he2, he3, he4, he5⟩ := chainInsert_found hins
    refine ⟨?_, ?_, ?_⟩
    · intro c2 hc2
      rcases List.mem_or_eq_of_mem_set hc2 with hcold | hcnew
      · exact hs c2 hcold
      · subst hcnew
        exact he5 hsrtc
    · intro i hi y hy
      simp only [List.length_set] at hi ⊢
      by_cases hji : i = idx
      · rw [hji] at hy ⊢
        rw [getD_set_self (by simpa using hidxlt)] at hy
        rcases he4 y hy with hys | hyold
        · rw [hys]
        · exact hh idx hidxlt y hyold
      · rw [getD_set_ne (fun hji2 => hji hji2.symm)] at hy
        exact hh i hi y hy
    · show q.itemCount = ((q.buckets.set idx c).map List.length).sum
      have h1 := @sum_lengths_set q.buckets idx c hidxlt
      rw [countOk] at hc
      omega
  | inserted c =>
    have hpermc : List.Perm c (⟨s, own, key⟩ :: q.buckets.getD idx []) :=
      chainInsert_inserted_perm hins
    have hlenc : c.length = (q.buckets.getD idx []).length + 1 := by
      simpa using hpermc.length_eq
    refine ⟨?_, ?_, ?_⟩
    · intro c2 hc2
      rcases List.mem_or_eq_of_mem_set hc2 with hcold | hcnew
      · exact hs c2 hcold
      · subst hcnew
        exact chainInsert_inserted_sorted hsrtc hins
    · intro i hi y hy
      simp only [List.length_set] at hi ⊢
      by_cases hji : i = idx
      · rw [hji] at hy ⊢
        rw [getD_set_self (by simpa using hidxlt)] at hy
        rcases List.mem_cons.mp (hpermc.mem_iff.mp hy) with rfl | hyold
        · exact hidx.symm
        · exact hh idx hidxlt y hyold
      · rw [getD_set_ne (fun hji2 => hji hji2.symm)] at hy
        exact hh i hi y hy
    · show q.itemCount + 1 = ((q.buckets.set idx c).map List.length).sum
      have h1 := @sum_lengths_set q.buckets idx c hidxlt
      rw [countOk] at hc
      omega

theorem chain_unique {c : List JStr} (hsrt : c.Pairwise chainLt) {e y : JStr}
    (he : e ∈ c) (hy : y ∈ c) (hes : e.s = y.s) : e = y := by
  induction c with
  | nil => cases he
  | cons f rest ih =>
    obtain ⟨hf, hr⟩ := List.pairwise_cons.mp hsrt
    rcases List.mem_cons.mp he with rfl | he2 <;> rcases List.mem_cons.mp hy with rfl | hy2
    · rfl
    · exact absurd hes (jcmp_lt_ne (hf y hy2))
    · exact absurd hes.symm (jcmp_lt_ne (hf e he2))
    · exact ih hr he2 hy2

theorem find?_eq_some_of_mem {c : List JStr} {s : ByteStr} {e : JStr}
    (hsrt : c.Pairwise chainLt) (he : e ∈ c) (hes : e.s = s) :
    (c.find? fun y => jcmp y.s s = .eq) = some e := by
  induction c with
  | nil => cases he
  | cons f rest ih =>
    obtain ⟨hf, hr⟩ := List.pairwise_cons.mp hsrt
    rcases List.mem_cons.mp he with rfl | he2
    · rw [List.find?_cons_of_pos]
      simpa using jcmp_eq_iff.mpr hes
    · rw [List.find?_cons_of_neg, ih hr he2]
      have hfe : f.s ≠ e.s := jcmp_lt_ne (hf e he2)
      simp only [decide_eq_true_eq]
      rw [← hes]
      intro hc
      exact hfe (jcmp_eq_iff.mp hc)

theorem itemCount_pos_of_mem {p : Pool} (hc : countOk p) {e : JStr}
    (he : e ∈ p.buckets.flatten) : 0 < p.itemCount := by
  rw [hc]
  obtain ⟨c, hcb, hec⟩ := List.mem_flatten.mp he
  have h1 : c.length ∈ p.buckets.map List.length := List.mem_map_of_mem _ hcb
  have h2 : c.length ≤ (p.buckets.map List.length).sum :=
    List.single_le_sum (fun x _ => Nat.zero_le x) _ h1
  have h3 : 0 < c.length := List.length_pos.mpr (List.ne_nil_of_mem hec)
  omega

theorem poolGet_eq_some_iff {hash : ByteStr → Nat} {p : Pool} {s : ByteStr}
    {e : JStr} (hwf : poolWf hash p) :
    poolGet hash p s = some e ↔ (e ∈ p.buckets.flatten ∧ e.s = s) := by
  obtain ⟨hs, hh, hc⟩ := hwf
  unfold poolGet
  constructor
  · intro hg
    by_cases hz : p.itemCount = 0
    · rw [if_pos hz] at hg
      cases hg
    · rw [if_neg hz] at hg
      have hps : jcmp e.s s = .eq := by simpa using List.find?_some hg
      have hes : e.s = s := jcmp_eq_iff.mp hps
      have hmem := List.mem_of_find?_eq_some hg
      have hlenpos : 0 < p.buckets.length := by
        by_contra hln
        have h0 : p.buckets = [] := List.length_eq_zero.mp (by omega)
        rw [h0] at hmem
        simp [List.getD] at hmem
      exact ⟨mem_getD_flatten (Nat.mod_lt _ hlenpos) hmem, hes⟩
  · rintro ⟨hmem, hes⟩
    have hz : p.itemCount ≠ 0 :=
      Nat.pos_iff_ne_zero.mp (itemCount_pos_of_mem hc hmem)
    rw [if_neg hz]
    obtain ⟨c, hcb, hec⟩ := List.mem_flatten.mp hmem
    obtain ⟨i, hi, hgi⟩ := List.mem_iff_getElem.mp hcb
    have hgd : p.buckets.getD i [] = c := by rw [getD_eq_getElem hi, hgi]
    have hhome : hash e.s % p.buckets.length = i :=
      hh i hi e (by rw [hgd]; exact hec)
    have hidx : hash s % p.buckets.length = i := by rw [← hes, hhome]
    rw [hidx, hgd]
    exact find?_eq_some_of_mem (hs c hcb) hec hes

theorem poolGet_none_iff {hash : ByteStr → Nat} {p : Pool} {s : ByteStr}
    (hwf : poolWf hash p) :
    poolGet hash p s = none ↔ ¬ poolMem p s := by
  constructor
  · intro hg hmem
    obtain ⟨e, hef, hes⟩ := List.mem_map.mp hmem
    rw [(poolGet_eq_some_iff hwf).mpr ⟨hef, hes⟩] at hg
    cases hg
  · intro hmem
    cases hg : poolGet hash p s with
    | none => rfl
    | some e =>
      obtain ⟨hef, hes⟩ := (poolGet_eq_some_iff hwf).mp hg
      exact absurd (List.mem_map.mpr ⟨e, hef, hes⟩) hmem

theorem poolMem_iff_mem_home {hash : ByteStr → Nat} {q : Pool} {s : ByteStr}
    (hwf : poolWf hash q) (hpos : 0 < q.buckets.length) :
    poolMem q s ↔ s ∈ (q.buckets.getD (hash s % q.buckets.length) []).map JStr.s := by
  obtain ⟨hs, hh, hc⟩ := hwf
  constructor
  · intro hmem
    obtain ⟨e, hef, hes⟩ := List.mem_map.mp hmem
    obtain ⟨c, hcb, hec⟩ := List.mem_flatten.mp hef
    obtain ⟨i, hi, hgi⟩ := List.mem_iff_getElem.mp hcb
    have hgd : q.buckets.getD i [] = c := by rw [getD_eq_getElem hi, hgi]
    have hhome : hash e.s % q.buckets.length = i :=
      hh i hi e (by rw [hgd]; exact hec)
    rw [← hes, hhome, hgd]
    exact List.mem_map.mpr ⟨e, hec, rfl⟩
  · intro hmem
    obtain ⟨e, hec, hes⟩ := List.mem_map.mp hmem
    refine List.mem_map.mpr ⟨e, ?_, hes⟩
    exact mem_getD_flatten (Nat.mod_lt _ hpos) hec

theorem poolProvide_found_iff {hash : ByteStr → Nat} {p : Pool} {s : ByteStr}
    {own key : Bool} (hwf : poolWf hash p) :
    (poolProvide hash p s own key).2.2 = true ↔ poolMem p s := by
  obtain ⟨hwfq, hperm, hcnt, hpos⟩ := @poolGrown_ok hash p hwf
  set q := poolGrown hash p with hq
  set idx := hash s % q.buckets.length with hidx
  have hidxlt : idx < q.buckets.length := Nat.mod_lt _ hpos
  have hchain : q.buckets.getD idx [] ∈ q.buckets := by
    rw [getD_eq_getElem hidxlt]
    exact q.buckets.getElem_mem hidxlt
  have hsrtc : (q.buckets.getD idx []).Pairwise chainLt := hwfq.1 _ hchain
  have hmemiff : poolMem p s ↔ poolMem q s := by
    unfold poolMem
    rw [(hperm.map JStr.s).mem_iff]
  have hhomeiff := poolMem_iff_mem_home hwfq hpos (s := s)
  show (match chainInsert ⟨s, own, key⟩ (q.buckets.getD idx []) with
      | .found e c => (Pool.mk (q.buckets.set idx c) q.itemCount, e, true)
      | .inserted c => (Pool.mk (q.buckets.set idx c) (q.itemCount + 1),
          JStr.mk s own key, false)).2.2 = true ↔ poolMem p s
  cases hins : chainInsert ⟨s, own, key⟩ (q.buckets.getD idx []) with
  | found e c =>
    simp only
    rw [hmemiff, hhomeiff]
    have : (∃ e2 c2, chainInsert ⟨s, own, key⟩ (q.buckets.getD idx []) =
        .found e2 c2) := ⟨e, c, hins⟩
    simpa using (chainInsert_found_iff (x := ⟨s, own, key⟩) hsrtc).mp this
  | inserted c =>
    simp only
    rw [hmemiff, hhomeiff]
    constructor
    · intro hfalse
      cases hfalse
    · intro hmem
      obtain ⟨e2, c2, h2⟩ :=
        (chainInsert_found_iff (x := ⟨s, own, key⟩) hsrtc).mpr (by simpa using hmem)
      rw [h2] at hins
      cases hins

theorem poolProvide_count {hash : ByteStr → Nat} {p : Pool} {s : ByteStr}
    {own key : Bool} (hwf : poolWf hash p) :
    (poolProvide hash p s own key).1.itemCount =
      (if poolMem p s then p.itemCount else p.itemCount + 1) := by
  obtain ⟨hwfq, hperm, hcnt, hpos⟩ := @poolGrown_ok hash p hwf
  set q := poolGrown hash p with hq
  set idx := hash s % q.buckets.length with hidx
  have hidxlt : idx < q.buckets.length := Nat.mod_lt _ hpos
  have hchain : q.buckets.getD idx [] ∈ q.buckets := by
    rw [getD_eq_getElem hidxlt]
    exact q.buckets.getElem_mem hidxlt
  have hsrtc : (q.buckets.getD idx []).Pairwise chainLt := hwfq.1 _ hchain
  have hfound := @poolProvide_found_iff hash p s own key hwf
  show (match chainInsert ⟨s, own, key⟩ (q.buckets.getD idx []) with
      | .found e c => (Pool.mk (q.buckets.set idx c) q.itemCount, e, true)
      | .inserted c => (Pool.mk (q.buckets.set idx c) (q.itemCount + 1),
          JStr.mk s own key, false)).1.itemCount =
    (if poolMem p s then p.itemCount else p.itemCount + 1)
  cases hins : chainInsert ⟨s, own, key⟩ (q.buckets.getD idx []) with
  | found e c =>
    simp only
    have hmem : poolMem p s := by
      rw [← hfound]
      show (match chainInsert ⟨s, own, key⟩ (q.buckets.getD idx []) with
        | .found e c => (Pool.mk (q.buckets.set idx c) q.itemCount, e, true)
        | .inserted c => (Pool.mk (q.buckets.set idx c) (q.itemCount + 1),
            JStr.mk s own key, false)).2.2 = true
      rw [hins]
    rw [if_pos hmem, hcnt]
  | inserted c =>
    simp only
    have hmem : ¬ poolMem p s := by
      rw [← hfound]
      show ¬ (match chainInsert ⟨s, own, key⟩ (q.buckets.getD idx []) with
        | .found e c => (Pool.mk (q.buckets.set idx c) q.itemCount, e, true)
        | .inserted c => (Pool.mk (q.buckets.set idx c) (q.itemCount + 1),
            JStr.mk s own key, false)).2.2 = true
      rw [hins]
      simp
    rw [if_neg hmem, hcnt]

/-! ### releaseValues lemmas -/

theorem releaseChain_eq_filter (c : List JStr) :
    releaseChain c = c.filter fun e => e.key := by
  induction c with
  | nil => rfl
  | cons e rest ih =>
    by_cases hk : e.key <;> simp [releaseChain, hk, ih]

theorem length_filter_add_not (c : List JStr) (P : JStr → Bool) :
    (c.filter P).length + (c.filter fun x => !P x).length = c.length := by
  induction c with
  | nil => rfl
  | cons e rest ih =>
    by_cases hp : P e <;> simp [List.filter_cons, hp] <;> omega

theorem releasedCount_le {p : Pool} (hc : countOk p) :
    releasedCount p ≤ p.itemCount := by
  rw [hc]
  unfold releasedCount
  induction p.buckets with
  | nil => simp
  | cons c rest ih =>
    simp only [List.map_cons, List.sum_cons]
    have h1 := length_filter_add_not c (fun e => e.key)
    omega

theorem releaseValues_count {p : Pool} (hc : countOk p) :
    p.releaseValues.itemCount + releasedCount p = p.itemCount := by
  unfold Pool.releaseValues
  simp only
  have := releasedCount_le hc
  omega

theorem releaseValues_wf {hash : ByteStr → Nat} {p : Pool} (hwf : poolWf hash p) :
    poolWf hash p.releaseValues := by
  obtain ⟨hs, hh, hc⟩ := hwf
  refine ⟨?_, ?_, ?_⟩
  · intro c hcm
    obtain ⟨c0, hc0, hc0e⟩ := List.mem_map.mp hcm
    rw [← hc0e, releaseChain_eq_filter]
    exact (hs c0 hc0).filter _
  · intro i hi y hy
    simp only [Pool.releaseValues, List.length_map] at hi hy ⊢
    have hgd : (p.buckets.map releaseChain).getD i [] =
        releaseChain (p.buckets.getD i []) := by
      rw [getD_eq_getElem (by simpa using hi), List.getElem_map,
        getD_eq_getElem hi]
    rw [hgd, releaseChain_eq_filter] at hy
    exact hh i hi y (List.mem_of_mem_filter hy)
  · show p.itemCount - releasedCount p = _
    have hsplit : ∀ bks : List (List JStr),
        (bks.map List.length).sum =
          (bks.map fun c => (releaseChain c).length).sum +
            (bks.map fun c => (c.filter fun e => !e.key).length).sum := by
      intro bks
      induction bks with
      | nil => simp
      | cons c rest ih =>
        simp only [List.map_cons, List.sum_cons]
        rw [releaseChain_eq_filter]
        have h1 := length_filter_add_not c (fun e => e.key)
        omega
    show p.itemCount - releasedCount p =
      ((p.buckets.map releaseChain).map List.length).sum
    rw [List.map_map]
    have h2 := hsplit p.buckets
    have h3 : releasedCount p =
        (p.buckets.map fun c => (c.filter fun e => !e.key).length).sum := rfl
    have h4 : ((List.length ∘ releaseChain) <$> p.buckets).sum =
        (p.buckets.map fun c => (releaseChain c).length).sum := by
      rfl
    rw [hc, h3]
    calc (p.buckets.map List.length).sum -
          (p.buckets.map fun c => (c.filter fun e => !e.key).length).sum
        = (p.buckets.map fun c => (releaseChain c).length).sum := by omega
      _ = _ := by rfl

theorem mem_flatten_release {p : Pool} {y : JStr} :
    y ∈ p.releaseValues.buckets.flatten ↔ (y ∈ p.buckets.flatten ∧ y.key = true) := by
  unfold Pool.releaseValues
  simp only
  constructor
  · intro hy
    obtain ⟨c2, hc2, hyc⟩ := List.mem_flatten.mp hy
    obtain ⟨c, hcb, hce⟩ := List.mem_map.mp hc2
    rw [← hce, releaseChain_eq_filter] at hyc
    refine ⟨List.mem_flatten.mpr ⟨c, hcb, List.mem_of_mem_filter hyc⟩, ?_⟩
    simpa using List.of_mem_filter hyc
  · rintro ⟨hy, hk⟩
    obtain ⟨c, hcb, hyc⟩ := List.mem_flatten.mp hy
    refine List.mem_flatten.mpr ⟨releaseChain c, List.mem_map_of_mem _ hcb, ?_⟩
    rw [releaseChain_eq_filter]
    exact List.mem_filter.mpr ⟨hyc, by simpa using hk⟩

theorem flatten_unique {p : Pool} (hnd : poolNoDup p) {e y : JStr}
    (he : e ∈ p.buckets.flatten) (hy : y ∈ p.buckets.flatten)
    (hes : e.s = y.s) : e = y :=
  List.inj_on_of_nodup_map hnd he hy hes

theorem releaseValues_get {hash : ByteStr → Nat} {p : Pool} {s : ByteStr}
    (hwf : poolWf hash p) :
    poolGet hash p.releaseValues s =
      match poolGet hash p s with
      | some e => if e.key then some e else none
      | none => none := by
  have hwfr : poolWf hash p.releaseValues := releaseValues_wf hwf
  have hnd : poolNoDup p := poolWf_noDup hwf.1 hwf.2.1
  cases hg : poolGet hash p s with
  | some e =>
    obtain ⟨hef, hes⟩ := (poolGet_eq_some_iff hwf).mp hg
    by_cases hk : e.key
    · simp only [hk, if_pos]
      exact (poolGet_eq_some_iff hwfr).mpr
        ⟨mem_flatten_release.mpr ⟨hef, hk⟩, hes⟩
    · simp only [hk, if_neg, Bool.false_eq_true, reduceIte]
      refine (poolGet_none_iff hwfr).mpr ?_
      intro hmem
      obtain ⟨y, hyf, hys⟩ := List.mem_map.mp hmem
      obtain ⟨hyp, hyk⟩ := mem_flatten_release.mp hyf
      have : e = y := flatten_unique hnd hef hyp (by rw [hes, hys])
      rw [this] at hk
      exact hk (by simp [hyk])
  | none =>
    have hnm : ¬ poolMem p s := (poolGet_none_iff hwf).mp hg
    refine (poolGet_none_iff hwfr).mpr ?_
    intro hmem
    obtain ⟨y, hyf, hys⟩ := List.mem_map.mp hmem
    exact hnm (List.mem_map.mpr ⟨y, (mem_flatten_release.mp hyf).1, hys⟩)

/-- C5: for every well-formed string-pool state, releaseValues removes
exactly the strings whose key flag is false: the item count drops by
exactly the number of non-key strings, a get that used to return a
key-flagged string returns the same reference afterwards, a get that used
to return a non-key string returns null afterwards, and a get that
returned null still returns null. -/
theorem lfjson_c5 {hash : ByteStr → Nat} {p : Pool} (hwf : poolWf hash p) :
    (p.releaseValues.itemCount + releasedCount p = p.itemCount) ∧
    (∀ s e, poolGet hash p s = some e →
        poolGet hash p.releaseValues s = (if e.key then some e else none)) ∧
    (∀ s, poolGet hash p s = none → poolGet hash p.releaseValues s = none) := by
  refine ⟨releaseValues_count hwf.2.2, ?_, ?_⟩
  · intro s e hg
    rw [releaseValues_get hwf, hg]
  · intro s hg
    rw [releaseValues_get hwf, hg]

/-- Witness for C5 at the concrete pool wpool (key string "hi", value-only
string "w"): the hypothesis poolWf is discharged by evaluation and the
theorem is applied at that state. -/
theorem lfjson_c5_witness :
    (wpool.releaseValues.itemCount + releasedCount wpool = wpool.itemCount) ∧
    poolGet fnv1a32 wpool.releaseValues [104, 105] =
      some ⟨[104, 105], false, true⟩ ∧
    poolGet fnv1a32 wpool.releaseValues [119] = none := by
  have h := @lfjson_c5 fnv1a32 wpool (by decide)
  refine ⟨h.1, ?_, ?_⟩
  · have h2 := h.2.1 [104, 105] ⟨[104, 105], false, true⟩ (by decide)
    simpa using h2
  · have h2 := h.2.1 [119] ⟨[119], false, false⟩ (by decide)
    simpa using h2

/-- C6: every string-pool operation preserves the pool invariants: the
bucket chains stay strictly increasing under the (length, lexicographic)
order, no byte string occurs more than once anywhere in the pool, and the
item count equals the total number of strings linked from all buckets.
Covered operations: provide (including the rehash it triggers on growth),
an explicit rehash to any positive bucket count, and releaseValues; get is
read-only (modelled as a pure function) and preserves the state
identically. -/
theorem lfjson_c6 {hash : ByteStr → Nat} {p : Pool} (hwf : poolWf hash p)
    (s : ByteStr) (own key : Bool) :
    (poolWf hash (poolProvide hash p s own key).1 ∧
      poolNoDup (poolProvide hash p s own key).1) ∧
    (∀ n, 0 < n → poolWf hash (p.rehash hash n) ∧ poolNoDup (p.rehash hash n)) ∧
    (poolWf hash p.releaseValues ∧ poolNoDup p.releaseValues) := by
  have h1 := @poolProvide_wf hash p s own key hwf
  have h3 := @releaseValues_wf hash p hwf
  refine ⟨⟨h1, poolWf_noDup h1.1 h1.2.1⟩, ?_, h3, poolWf_noDup h3.1 h3.2.1⟩
  intro n hn
  have h2 := (rehash_ok hn hwf).1
  exact ⟨h2, poolWf_noDup h2.1 h2.2.1⟩

/-- Witness for C6 at the concrete pool wpool, inserting the string "hey"
as an owned key. -/
theorem lfjson_c6_witness :
    poolWf fnv1a32 (poolProvide fnv1a32 wpool [104, 101, 121] true true).1 ∧
    poolWf fnv1a32 (wpool.rehash fnv1a32 4) ∧
    poolWf fnv1a32 wpool.releaseValues := by
  have h := @lfjson_c6 fnv1a32 wpool (by decide)
    [104, 101, 121] true true
  exact ⟨h.1.1, (h.2.1 4 (by decide)).1, h.2.2.1⟩

theorem poolProvide_ref_s (hash : ByteStr → Nat) (p : Pool) (s : ByteStr)
    (own key : Bool) : (poolProvide hash p s own key).2.1.s = s := by
  unfold poolProvide
  set q := poolGrown hash p with hq
  set idx := hash s % q.buckets.length with hidx
  cases hins : chainInsert ⟨s, own, key⟩ (q.buckets.getD idx []) with
  | found e c =>
    simp only [hins]
    exact (chainInsert_found hins).1
  | inserted c =>
    simp only [hins]

/-- C1 counterexample: assigning the 14-character string "abcdefghijklmn"
through the editor stores it INLINE: the tag is ShortString, not
LongString, and the pool item count stays 0 rather than increasing by 1.
The code's short-string test is minLen < ShortString_MaxSize with
MaxSize = 15, so every length up to 14 = MaxLen is short (the README
states short-string optimization up to 14 characters). -/
theorem lfjson_c1_counterexample :
    (refAssignString fnv1a32 Pool.empty str14).2.type = JType.SSTRING ∧
    (refAssignString fnv1a32 Pool.empty str14).1.itemCount = 0 ∧
    ¬((refAssignString fnv1a32 Pool.empty str14).2.type = JType.LSTRING ∧
      (refAssignString fnv1a32 Pool.empty str14).1.itemCount =
        Pool.empty.itemCount + 1) := by
  refine ⟨rfl, rfl, ?_⟩
  rintro ⟨h1, _⟩
  rw [show (refAssignString fnv1a32 Pool.empty str14).2.type = JType.SSTRING
    from rfl] at h1
  cases h1

/-- C1 (amended): a string of length at most MaxLen = 14 (that is, length
strictly below ShortString_MaxSize = 15) is stored inline with tag
ShortString by RefValue::operator=, arrayPushBack and objectPushBack, and
the pool is untouched; a string of length 15 or more is interned in the
string pool with tag LongString, the pool item count increasing by 1 when
the string was absent.  In particular "abcdefghijklmn" (length 14) is a
ShortString and leaves the pool size unchanged. -/
theorem lfjson_c1_amended {hash : ByteStr → Nat} {p : Pool} {s : ByteStr}
    (hwf : poolWf hash p) :
    (s.length ≤ shortStringMaxLen →
      refAssignString hash p s = (p, .jsstring s) ∧
      (∀ l, arrayPushBackString hash p (.jarray l) s (-1) =
        some (p, .jarray (l ++ [.jsstring s]))) ∧
      (∀ ms k, objectPushBackString hash p (.jobject ms) k s (-1) =
        some ((poolProvide hash p k false true).1,
          .jobject (ms ++ [((poolProvide hash p k false true).2.1.s,
            .jsstring s)])))) ∧
    (shortStringMaxSize ≤ s.length →
      ((refAssignString hash p s).2 = .jlstring s ∧
        (¬ poolMem p s →
          (refAssignString hash p s).1.itemCount = p.itemCount + 1)) ∧
      (∀ l, ∃ p2, arrayPushBackString hash p (.jarray l) s (-1) =
          some (p2, .jarray (l ++ [.jlstring s])) ∧
          (¬ poolMem p s → p2.itemCount = p.itemCount + 1)) ∧
      (∀ ms k, ∃ p2, objectPushBackString hash p (.jobject ms) k s (-1) =
          some (p2, .jobject (ms ++ [((poolProvide hash p k false true).2.1.s,
            .jlstring s)])) ∧
          (¬ poolMem (poolProvide hash p k false true).1 s →
            p2.itemCount = (poolProvide hash p k false true).1.itemCount + 1))) := by
  have hred : ∀ q : Pool, classifyString hash q s (-1) =
      (if minStringLength s < shortStringMaxSize then
        (q, .jsstring (s.take (minStringLength s)))
      else ((poolProvide hash q s false false).1,
        .jlstring (poolProvide hash q s false false).2.1.s)) := fun _ => rfl
  constructor
  · intro hshort
    have hmin : minStringLength s = s.length := by
      unfold minStringLength shortStringMaxSize
      unfold shortStringMaxLen shortStringMaxSize at hshort
      omega
    have hlt : minStringLength s < shortStringMaxSize := by
      unfold shortStringMaxLen shortStringMaxSize at hshort
      unfold shortStringMaxSize
      omega
    have hcl : ∀ q : Pool, classifyString hash q s (-1) = (q, .jsstring s) := by
      intro q
      rw [hred q, if_pos hlt, hmin, List.take_length]
    refine ⟨hcl p, ?_, ?_⟩
    · intro l
      show some ((classifyString hash p s (-1)).1,
        JVal.jarray (l ++ [(classifyString hash p s (-1)).2])) = _
      rw [hcl p]
    · intro ms k
      show some ((classifyString hash (poolProvide hash p k false true).1 s (-1)).1,
          JVal.jobject (ms ++ [((poolProvide hash p k false true).2.1.s,
            (classifyString hash (poolProvide hash p k false true).1 s (-1)).2)])) = _
      rw [hcl _]
  · intro hlong
    have hnlt : ¬ (minStringLength s < shortStringMaxSize) := by
      unfold minStringLength
      omega
    have hcl : ∀ q : Pool, classifyString hash q s (-1) =
        ((poolProvide hash q s false false).1,
          .jlstring (poolProvide hash q s false false).2.1.s) := by
      intro q
      rw [hred q, if_neg hnlt]
    have hrefs : ∀ q : Pool, (poolProvide hash q s false false).2.1.s = s :=
      fun q => poolProvide_ref_s hash q s false false
    refine ⟨⟨?_, ?_⟩, ?_, ?_⟩
    · show (classifyString hash p s (-1)).2 = _
      rw [hcl p]
      simp only
      rw [hrefs p]
    · intro hnm
      show (classifyString hash p s (-1)).1.itemCount = _
      rw [hcl p]
      simp only
      rw [poolProvide_count hwf, if_neg hnm]
    · intro l
      refine ⟨(poolProvide hash p s false false).1, ?_, ?_⟩
      · show some ((classifyString hash p s (-1)).1,
          JVal.jarray (l ++ [(classifyString hash p s (-1)).2])) = _
        rw [hcl p]
        simp only
        rw [hrefs p]
      · intro hnm
        rw [poolProvide_count hwf, if_neg hnm]
    · intro ms k
      have hwfk : poolWf hash (poolProvide hash p k false true).1 :=
        poolProvide_wf hwf
      refine ⟨(poolProvide hash (poolProvide hash p k false true).1 s
        false false).1, ?_, ?_⟩
      · show some ((classifyString hash (poolProvide hash p k false true).1 s (-1)).1,
          JVal.jobject (ms ++ [((poolProvide hash p k false true).2.1.s,
            (classifyString hash (poolProvide hash p k false true).1 s (-1)).2)])) = _
        rw [hcl _]
        simp only
        rw [hrefs _]
      · intro hnm
        rw [poolProvide_count hwfk, if_neg hnm]

/-- Witness for C1 (amended): the 14-character boundary string is stored
as a ShortString leaving the empty pool empty, and a 15-character string
is interned as LongString with the pool growing to one item. -/
theorem lfjson_c1_witness :
    (refAssignString fnv1a32 Pool.empty str14 = (Pool.empty, .jsstring str14)) ∧
    ((refAssignString fnv1a32 Pool.empty (str14 ++ [111])).2 =
      .jlstring (str14 ++ [111]) ∧
      (refAssignString fnv1a32 Pool.empty (str14 ++ [111])).1.itemCount = 1) := by
  have h14 := @lfjson_c1_amended fnv1a32 Pool.empty str14 (by decide)
  have h15 := @lfjson_c1_amended fnv1a32 Pool.empty (str14 ++ [111]) (by decide)
  refine ⟨(h14.1 (by decide)).1, ((h15.2 (by decide)).1.1), ?_⟩
  exact ((h15.2 (by decide)).1.2 (by decide))

/-- C4: operator[](key) on a Null or Object cell retags Null to an empty
Object; when the object already contains a member with an equal (interned)
key it returns that member's slot with members and size unchanged, never
replacing; otherwise it appends exactly one member with that key and a
Null value.  operator[](index) on a Null or Array cell appends exactly one
Null element when index equals the size, and returns the existing slot
with the size unchanged when index is below the size. -/
theorem lfjson_c4 {hash : ByteStr → Nat} {p : Pool} (hwf : poolWf hash p) :
    (∀ ms k i, poolMem p k →
      ms.findIdx? (fun m => decide (m.1 = k)) = some i →
      refBracketKey hash p (.jobject ms) k =
        some ((poolProvide hash p k false true).1, .jobject ms, i)) ∧
    (∀ ms k, (∀ m ∈ ms, m.1 ≠ k) →
      refBracketKey hash p (.jobject ms) k =
        some ((poolProvide hash p k false true).1,
          .jobject (ms ++ [(k, .jnull)]), ms.length)) ∧
    (∀ k, refBracketKey hash p .jnull k =
      some ((poolProvide hash p k false true).1, .jobject [(k, .jnull)], 0)) ∧
    (∀ l, refBracketIdx (.jarray l) l.length =
      some (.jarray (l ++ [.jnull]), l.length)) ∧
    (∀ l index, index < l.length →
      refBracketIdx (.jarray l) index = some (.jarray l, index)) ∧
    (refBracketIdx .jnull 0 = some (.jarray [.jnull], 0)) := by
  have hrefs : ∀ k, (poolProvide hash p k false true).2.1.s = k :=
    fun k => poolProvide_ref_s hash p k false true
  refine ⟨?_, ?_, ?_, ?_, ?_, ?_⟩
  · intro ms k i hkm hfi
    have hfound : (poolProvide hash p k false true).2.2 = true :=
      (poolProvide_found_iff hwf).mpr hkm
    show (match (if (poolProvide hash p k false true).2.2 then
        ms.findIdx? (fun m => decide (m.1 = (poolProvide hash p k false true).2.1.s))
        else none) with
      | some i => some ((poolProvide hash p k false true).1, JVal.jobject ms, i)
      | none => some ((poolProvide hash p k false true).1,
          JVal.jobject (ms ++ [((poolProvide hash p k false true).2.1.s, JVal.jnull)]),
          ms.length)) = _
    rw [if_pos hfound, hrefs k, hfi]
  · intro ms k hnone
    have hfi : ms.findIdx? (fun m => decide (m.1 = k)) = none := by
      rw [List.findIdx?_eq_none_iff]
      intro m hm
      simpa using hnone m hm
    show (match (if (poolProvide hash p k false true).2.2 then
        ms.findIdx? (fun m => decide (m.1 = (poolProvide hash p k false true).2.1.s))
        else none) with
      | some i => some ((poolProvide hash p k false true).1, JVal.jobject ms, i)
      | none => some ((poolProvide hash p k false true).1,
          JVal.jobject (ms ++ [((poolProvide hash p k false true).2.1.s, JVal.jnull)]),
          ms.length)) = _
    by_cases hfound : (poolProvide hash p k false true).2.2 = true
    · rw [if_pos hfound, hrefs k, hfi]
    · rw [if_neg hfound]
      simp only
      rw [hrefs k]
  · intro k
    show (match (if (poolProvide hash p k false true).2.2 then
        ([] : List (ByteStr × JVal)).findIdx?
          (fun m => decide (m.1 = (poolProvide hash p k false true).2.1.s))
        else none) with
      | some i => some ((poolProvide hash p k false true).1, JVal.jobject [], i)
      | none => some ((poolProvide hash p k false true).1,
          JVal.jobject ([] ++ [((poolProvide hash p k false true).2.1.s, JVal.jnull)]),
          ([] : List (ByteStr × JVal)).length)) = _
    by_cases hfound : (poolProvide hash p k false true).2.2 = true
    · rw [if_pos hfound]
      simp only [List.findIdx?_nil]
      rw [hrefs k]
      rfl
    · rw [if_neg hfound]
      simp only
      rw [hrefs k]
      rfl
  · intro l
    show (if l.length ≤ l.length then
      if l.length = l.length then some (JVal.jarray (l ++ [JVal.jnull]), l.length)
      else some (JVal.jarray l, l.length) else none) = _
    rw [if_pos (le_refl _), if_pos rfl]
  · intro l index hlt
    show (if index ≤ l.length then
      if index = l.length then some (JVal.jarray (l ++ [JVal.jnull]), index)
      else some (JVal.jarray l, index) else none) = _
    rw [if_pos (le_of_lt hlt), if_neg (Nat.ne_of_lt hlt)]
  · rfl

/-- Witness for C4 on the concrete pool wpool: the object
containing the member "hi" is queried for "hi" (hit, unchanged) and a
fresh array slot is appended at the size. -/
theorem lfjson_c4_witness :
    refBracketKey fnv1a32 wpool (.jobject [([104, 105], .jint 7)]) [104, 105] =
      some ((poolProvide fnv1a32 wpool [104, 105] false true).1,
        .jobject [([104, 105], .jint 7)], 0) ∧
    refBracketIdx (.jarray [.jtrue]) 1 = some (.jarray [.jtrue, .jnull], 1) := by
  have h := @lfjson_c4 fnv1a32 wpool (by decide)
  constructor
  · exact h.1 [([104, 105], .jint 7)] [104, 105] 0 (by decide) (by rfl)
  · have h2 := h.2.2.2.1 [JVal.jtrue]
    simpa using h2

/-- C9: every checked accessor (and its const variant, whose body is
identical) raises out_of_range exactly when index >= size and returns the
element at the index otherwise; being pure reads they leave the document
unchanged in both cases. -/
theorem lfjson_c9 :
    (∀ (l : List JVal) index,
      (arrayValueAt (.jarray l) index = some (.error ()) ↔ l.length ≤ index) ∧
      (arrayCValueAt (.jarray l) index = arrayValueAt (.jarray l) index) ∧
      (index < l.length →
        arrayValueAt (.jarray l) index = some (.ok (l.getD index .jnull)))) ∧
    (∀ (l : List Bool) index,
      (barrayValueAt (.jbarray l) index = some (.error ()) ↔ l.length ≤ index) ∧
      (barrayCValueAt (.jbarray l) index = barrayValueAt (.jbarray l) index) ∧
      (index < l.length →
        barrayValueAt (.jbarray l) index = some (.ok (l.getD index false)))) ∧
    (∀ (l : List Int) index,
      (iarrayValueAt (.jiarray l) index = some (.error ()) ↔ l.length ≤ index) ∧
      (iarrayCValueAt (.jiarray l) index = iarrayValueAt (.jiarray l) index) ∧
      (index < l.length →
        iarrayValueAt (.jiarray l) index = some (.ok (l.getD index 0)))) ∧
    (∀ (l : List Rat) index,
      (darrayValueAt (.jdarray l) index = some (.error ()) ↔ l.length ≤ index) ∧
      (darrayCValueAt (.jdarray l) index = darrayValueAt (.jdarray l) index) ∧
      (index < l.length →
        darrayValueAt (.jdarray l) index = some (.ok (l.getD index 0)))) ∧
    (∀ (ms : List (ByteStr × JVal)) index,
      (objectMemberAt (.jobject ms) index = some (.error ()) ↔ ms.length ≤ index) ∧
      (objectCMemberAt (.jobject ms) index = objectMemberAt (.jobject ms) index) ∧
      (index < ms.length →
        objectMemberAt (.jobject ms) index =
          some (.ok (ms.getD index ([], .jnull))))) := by
  refine ⟨?_, ?_, ?_, ?_, ?_⟩ <;> intro l index <;>
    refine ⟨?_, rfl, ?_⟩
  case refine_1.refine_1 | refine_2.refine_1 | refine_3.refine_1
    | refine_4.refine_1 | refine_5.refine_1 =>
    constructor
    · intro hacc
      by_cases hge : index ≥ l.length
      · exact hge
      · exfalso
        revert hacc
        show (if index ≥ l.length then _ else _) = _ → False
        rw [if_neg hge]
        intro hacc
        simp at hacc
    · intro hge
      show (if index ≥ l.length then _ else _) = _
      rw [if_pos hge]
  case refine_1.refine_2 | refine_2.refine_2 | refine_3.refine_2
    | refine_4.refine_2 | refine_5.refine_2 =>
    intro hlt
    show (if index ≥ l.length then _ else _) = _
    rw [if_neg (by omega)]

/-- Witness for C9 at a three-element integer array: index 1 reads the
element, index 3 raises out_of_range. -/
theorem lfjson_c9_witness :
    iarrayValueAt (.jiarray [5, 6, 7]) 1 = some (.ok 6) ∧
    iarrayValueAt (.jiarray [5, 6, 7]) 3 = some (.error ()) := by
  have h := lfjson_c9
  constructor
  · have h2 := (h.2.2.1 [5, 6, 7] 1).2.2 (by decide)
    simpa using h2
  · exact ((h.2.2.1 [5, 6, 7] 3).1).mpr (by decide)

/-! ## Claims C2, C3, C8, C10: handler behaviour -/

/-- C2 (code bug is exposed on the allowIntToDouble=false half): with
allowIntToDouble=true the sequence startArray, pushInt64(1), pushInt64(2),
pushDouble(3.5), endArray(3) produces a root DArray holding [1.0, 2.0,
3.5], as claimed; with allowIntToDouble=false the generic promotion in
convertedFor widens the two pending int64 elements to value cells without
adjusting mStack.size, so the double's value cell overwrites the second
element and endArray(3) underflows the byte stack (debug assertion; the
model yields none), instead of the claimed generic Array
[Int64 1, Int64 2, Double 3.5]. -/
theorem lfjson_c2_divergence :
    ((runEvents fnv1a32 [.startArray, .pushInt64 1, .pushInt64 2,
        .pushDouble (3.5 : Rat), .endArray 3] (hInit true)).map HState.root) =
      some (.jdarray [1, 2, (3.5 : Rat)]) ∧
    runEvents fnv1a32 [.startArray, .pushInt64 1, .pushInt64 2,
        .pushDouble (3.5 : Rat), .endArray 3] (hInit false) = none := by
  constructor <;> rfl

/-- C3 (code bug): the sequence startArray, pushBool(true), pushInt64(1),
endArray(2) does not produce the claimed Array [True, Int64 1]: the
generic promotion of the pending BARRAY segment widens the bool to a
16-byte cell without adjusting mStack.size, the following int cell
overwrites it, and endArray(2) underflows the byte stack (mStack.size is
17 where 32 bytes are popped); the run aborts on the debug assertion
(none in the model) under either allowIntToDouble setting. -/
theorem lfjson_c3_divergence :
    runEvents fnv1a32 [.startArray, .pushBool true, .pushInt64 1, .endArray 2]
      (hInit true) = none ∧
    runEvents fnv1a32 [.startArray, .pushBool true, .pushInt64 1, .endArray 2]
      (hInit false) = none := by
  constructor <;> rfl

/-- C10: pushUInt forwards every unsigned int to pushInt64 after a
value-preserving cast; pushUInt64 takes the pushInt64 path whenever the
value fits in int64 (so such values are tagged Int64, e.g. the member
value becomes an Int64 cell), and only a value above 2^63 - 1 produces a
UInt64-tagged cell. -/
theorem lfjson_c10 (u : Nat) (hu : u < 2 ^ 64) (st : HState) :
    (hPushUInt st u = hPushInt64 st (u : Int)) ∧
    (u ≤ 2 ^ 63 - 1 → hPushUInt64 st u = hPushInt64 st (u : Int)) ∧
    (u ≤ 2 ^ 63 - 1 → st.memberVal = true →
      hPushUInt64 st u = fillMember st (.jint u)) ∧
    (2 ^ 63 - 1 < u → st.memberVal = true →
      hPushUInt64 st u = fillMember st (.juint u)) := by
  refine ⟨rfl, ?_, ?_, ?_⟩
  · intro hle
    unfold hPushUInt64
    rw [if_pos (by omega)]
  · intro hle hmv
    unfold hPushUInt64 hPushInt64
    rw [if_pos (by omega)]
    simp [hmv]
  · intro hgt hmv
    unfold hPushUInt64
    rw [if_neg (by omega)]
    simp [hmv]

/-- Witness for C10: a handler state awaiting the member value for key
"a"; pushUInt64 5 stores Int64 5 and pushUInt64 (2^63) stores UInt64. -/
theorem lfjson_c10_witness :
    (hPushUInt64
      { root := .jobject [], pool := Pool.empty,
        stack := [(0, .memb [97] .jnull)], size := 24, memberVal := true,
        rootInit := true, intToDouble := true, arraySize := 0,
        arrayType := .NUL } 5 =
      fillMember
        { root := .jobject [], pool := Pool.empty,
          stack := [(0, .memb [97] .jnull)], size := 24, memberVal := true,
          rootInit := true, intToDouble := true, arraySize := 0,
          arrayType := .NUL } (.jint 5)) ∧
    (hPushUInt64
      { root := .jobject [], pool := Pool.empty,
        stack := [(0, .memb [97] .jnull)], size := 24, memberVal := true,
        rootInit := true, intToDouble := true, arraySize := 0,
        arrayType := .NUL } 9223372036854775808 =
      fillMember
        { root := .jobject [], pool := Pool.empty,
          stack := [(0, .memb [97] .jnull)], size := 24, memberVal := true,
          rootInit := true, intToDouble := true, arraySize := 0,
          arrayType := .NUL } (.juint 9223372036854775808)) := by
  constructor
  · exact (lfjson_c10 5 (by decide)
      { root := .jobject [], pool := Pool.empty,
        stack := [(0, .memb [97] .jnull)], size := 24, memberVal := true,
        rootInit := true, intToDouble := true, arraySize := 0,
        arrayType := .NUL }).2.2.1 (by decide) rfl
  · exact (lfjson_c10 9223372036854775808 (by norm_num)
      { root := .jobject [], pool := Pool.empty,
        stack := [(0, .memb [97] .jnull)], size := 24, memberVal := true,
        rootInit := true, intToDouble := true, arraySize := 0,
        arrayType := .NUL }).2.2.2 (by norm_num) rfl

/-- C8 (code bug): for the borrowing overload, length -1 agrees with the
explicit NUL-scanned length, but pushString with copy=true and length -1
on a short string aborts: the copying inPlaceValue passes the raw length
argument to the short-string constructor, which receives 4294967295 after
the uint32 conversion and fails the isShort assertion (undefined memcpy
in release), instead of storing the short string the claim requires. -/
theorem lfjson_c8_divergence :
    inPlaceString fnv1a32 Pool.empty [104, 105] true (-1) = none ∧
    inPlaceString fnv1a32 Pool.empty [104, 105] true 2 =
      some (Pool.empty, .jsstring [104, 105]) ∧
    inPlaceString fnv1a32 Pool.empty [104, 105] false (-1) =
      inPlaceString fnv1a32 Pool.empty [104, 105] false 2 ∧
    runEvents fnv1a32 [.startArray, .pushString [104, 105] true (-1),
      .endArray 1] (hInit true) = none ∧
    (runEvents fnv1a32 [.startArray, .pushString [104, 105] true 2,
      .endArray 1] (hInit true)).map HState.root =
      some (.jarray [.jsstring [104, 105]]) := by
  refine ⟨rfl, rfl, rfl, rfl, rfl⟩

/-- C7 counterexample: in the nominal scheme with 64-byte chunks, after
allocating A = (0,0), B = (0,16), C = (0,32) and deallocating B (leaving
totalDead = 16), the next allocate(15) does NOT occupy B's slot with
totalDead back to 0: allocate serves the last chunk's tail before
consulting its freelist, so it returns the fourth slot (0,48) and
totalDead stays 16. -/
theorem lfjson_c7_counterexample :
    c7setup.map (fun r => (r.1, r.2.1, r.2.2.1)) = some ((0, 0), (0, 16), (0, 32)) ∧
    c7setup.map (fun r => r.2.2.2.totalDead) = some 16 ∧
    c7next.map Prod.fst = some (0, 48) ∧
    c7next.map (fun r => r.2.totalDead) = some 16 ∧
    ¬ (c7next.map Prod.fst = some (0, 16) ∧
       c7next.map (fun r => r.2.totalDead) = some 0) := by
  refine ⟨rfl, rfl, rfl, rfl, fun h => ?_⟩
  have h1 := h.1
  rw [show c7next.map Prod.fst = some ((0 : Nat), (48 : Nat)) from rfl] at h1
  simp at h1

/-- C7 amended: with 64-byte chunks, after allocating A, B, C (16 bytes
each) and deallocating B, the next allocate(15) is served from the chunk
tail at (0,48) with totalDead remaining 16; it is the SECOND allocate(15)
that occupies B's slot (0,16), an exact-fit freelist hit that returns
totalDead to 0. -/
theorem lfjson_c7_amended :
    c7next.map Prod.fst = some (0, 48) ∧
    c7next.map (fun r => r.2.totalDead) = some 16 ∧
    c7second.map Prod.fst = some (0, 16) ∧
    c7second.map (fun r => r.2.totalDead) = some 0 :=
  ⟨rfl, rfl, rfl, rfl⟩

end Lfjson
